import Mathlib

/-!
Verification of the trigger scale-factor uncertainty engine
(`columnflow/production/cmsGhent/trigger`).

Histograms are modelled as a list of named axes together with a value
function on name-keyed bin assignments (`String → Nat`), mirroring the
source's convention that bins are addressed by axis-name-keyed
dictionaries.  Only the value component of the `Weight` storage is
modelled; none of the verified properties inspect variances.  Bin values
live in `ℚ`; division by zero yields the junk value `0` (the source's
NaN/Inf propagation collapses matching degenerate bins to a single junk
value, and no verified property inspects such bins).
-/

namespace TriggerSF

/-- A named histogram axis with a number of bins (categories). -/
structure Axis where
  name : String
  size : Nat
  deriving DecidableEq, Repr

/-- A histogram: ordered named axes plus a value for every name-keyed bin
assignment.  An assignment `g : String → Nat` gives the bin index chosen
on each axis (looked up by axis name); values of `g` outside the axis
names are irrelevant for well-formed histograms (`Hist.wf`). -/
structure Hist where
  axes : List Axis
  data : (String → Nat) → ℚ

/-- The names of a histogram's axes. -/
def Hist.names (h : Hist) : List String := h.axes.map (·.name)

/-- A histogram is well formed when its values depend only on the bin
indices of its own axes. -/
def Hist.wf (h : Hist) : Prop :=
  ∀ g g' : String → Nat, (∀ ax ∈ h.axes, g ax.name = g' ax.name) → h.data g = h.data g'

/-- Replace the component of an assignment at one axis name. -/
def override (g : String → Nat) (n : String) (v : Nat) : String → Nat :=
  fun m => if m = n then v else g m

/-- Replace the components of an assignment at all names in `ns` by the
corresponding components of `r`. -/
def patch (g : String → Nat) (ns : List String) (r : String → Nat) : String → Nat :=
  fun m => if m ∈ ns then r m else g m

/-- Two assignments agree on a list of names. -/
def Agree (ns : List String) (g g' : String → Nat) : Prop :=
  ∀ n ∈ ns, g n = g' n

instance (ns : List String) (g g' : String → Nat) : Decidable (Agree ns g g') :=
  inferInstanceAs (Decidable (∀ n ∈ ns, g n = g' n))

/-- All bin assignments of a list of axes: the cartesian product of the
bin ranges, with every other name sent to `0`. -/
def assignments : List Axis → List (String → Nat)
  | [] => [fun _ => 0]
  | ax :: rest =>
      (assignments rest).flatMap fun g => (List.range ax.size).map fun v => override g ax.name v

theorem override_same (g : String → Nat) (n : String) (v : Nat) :
    override g n v n = v := by simp [override]

theorem override_other (g : String → Nat) {n m : String} (v : Nat) (h : m ≠ n) :
    override g n v m = g m := by simp [override, h]

/-- Membership in `assignments`: each component is within the axis range. -/
theorem mem_assignments_lt {axes : List Axis} {g : String → Nat}
    (hg : g ∈ assignments axes) (hnd : (axes.map (·.name)).Nodup) :
    ∀ ax ∈ axes, g ax.name < ax.size := by
  induction axes generalizing g with
  | nil => intro ax hax; cases hax
  | cons a rest ih =>
      simp only [assignments, List.mem_flatMap, List.mem_map, List.mem_range] at hg
      obtain ⟨g0, hg0, v, hv, rfl⟩ := hg
      simp only [List.map_cons, List.nodup_cons, List.mem_map] at hnd
      intro ax hax
      rcases List.mem_cons.mp hax with rfl | hax'
      · simpa [override] using hv
      · have hne : ax.name ≠ a.name := by
          intro h
          exact hnd.1 ⟨ax, hax', h⟩
        rw [override_other _ _ hne]
        exact ih hg0 hnd.2 ax hax'

/-- Members of `assignments` vanish off their axes' names. -/
theorem mem_assignments_eq_zero {axes : List Axis} {g : String → Nat}
    (hg : g ∈ assignments axes) :
    ∀ n, n ∉ axes.map (·.name) → g n = 0 := by
  induction axes generalizing g with
  | nil =>
      simp only [assignments, List.mem_singleton] at hg
      intro n _; simp [hg]
  | cons a rest ih =>
      simp only [assignments, List.mem_flatMap, List.mem_map, List.mem_range] at hg
      obtain ⟨g0, hg0, v, _, rfl⟩ := hg
      intro n hn
      simp only [List.map_cons, List.mem_cons, not_or] at hn
      rw [override_other _ _ hn.1]
      exact ih hg0 n hn.2

/-- Restriction of an assignment to a list of axes (zero elsewhere),
always a member of `assignments`. -/
def restrictTo (axes : List Axis) (g : String → Nat) : String → Nat :=
  fun n => if n ∈ axes.map (·.name) then g n else 0

theorem restrictTo_mem (axes : List Axis) (g : String → Nat)
    (hg : ∀ ax ∈ axes, g ax.name < ax.size) (hnd : (axes.map (·.name)).Nodup) :
    restrictTo axes g ∈ assignments axes := by
  induction axes with
  | nil =>
      simp only [assignments, List.mem_singleton]
      funext n
      simp [restrictTo]
  | cons a rest ih =>
      simp only [List.map_cons, List.nodup_cons, List.mem_map] at hnd
      have hrest : restrictTo rest g ∈ assignments rest :=
        ih (fun ax hax => hg ax (List.mem_cons_of_mem _ hax)) hnd.2
      simp only [assignments, List.mem_flatMap, List.mem_map, List.mem_range]
      refine ⟨restrictTo rest g, hrest, g a.name, hg a (List.mem_cons_self _ _), ?_⟩
      funext n
      by_cases hna : n = a.name
      · subst hna; simp [override, restrictTo]
      · have : (n ∈ (a :: rest).map (·.name)) ↔ (n ∈ rest.map (·.name)) := by
          simp [hna]
        simp [override, restrictTo, hna, this]

/-! ## Histogram utilities

Modelled from the spec (`util` module of the trigger subsystem; only its
callers are available): reduction, selection, projection, systematic
histogram construction and efficiency computation. -/

/-- Modelled from the spec: `reduce_hist`'s underlying primitive — collapse
(sum over) exactly the axes named in `ns`; axes not present are silently
ignored.  The input histogram is not mutated (everything here is pure). -/
def sumOver (h : Hist) (ns : List String) : Hist :=
  let removed := h.axes.filter (fun ax => ax.name ∈ ns)
  { axes := h.axes.filter (fun ax => ax.name ∉ ns),
    data := fun g =>
      ((assignments removed).map fun r => h.data (patch g (removed.map (·.name)) r)).sum }

/-- Modelled from the spec: `reduce_hist(h, exclude=excl)` — collapse all
axes not in `excl`. -/
def reduce_hist_exclude (h : Hist) (excl : List String) : Hist :=
  sumOver h ((h.axes.map (·.name)).filter (fun n => n ∉ excl))

/-- Modelled from the spec: `reduce_hist(h, reduce=red)` — collapse exactly
the axes in `red`. -/
def reduce_hist_reduce (h : Hist) (red : List String) : Hist :=
  sumOver h red

/-- Modelled from the spec: selecting one bin of a named axis (the axis is
removed; the bin index is fixed). -/
def select (h : Hist) (n : String) (v : Nat) : Hist :=
  { axes := h.axes.filter (fun ax => ax.name ≠ n),
    data := fun g => h.data (override g n v) }

/-- Modelled from the spec: `h.project(*sel)` — sum over all axes outside
`sel` and reorder the surviving axes to the requested order. -/
def project (h : Hist) (sel : List String) : Hist :=
  let r := sumOver h ((h.axes.map (·.name)).filter (fun n => n ∉ sel))
  { axes := sel.filterMap (fun n => r.axes.find? (fun ax => ax.name = n)),
    data := r.data }

/-- Modelled from the spec: the slice of a histogram obtained by fixing the
axes named in `ns` at the bin indices of `r` (used for `loop_hists`'
per-hist bin slices). -/
def sliceNamed (h : Hist) (ns : List String) (r : String → Nat) : Hist :=
  { axes := h.axes.filter (fun ax => ax.name ∉ ns),
    data := fun g => h.data (patch g ns r) }

/-- Modelled from the spec: `syst_hist(axes, syst_name, arrays)` — a
histogram whose axes are `axes` plus a new 2-category (down, up) axis named
`sname`; if the pair `arrays` is given it seeds the two categories' values,
otherwise all bins start at the default value `0`. -/
def syst_hist (axes : List Axis) (sname : String)
    (arrays : Option (((String → Nat) → ℚ) × ((String → Nat) → ℚ))) : Hist :=
  { axes := axes ++ [⟨sname, 2⟩],
    data := fun g =>
      match arrays with
      | none => 0
      | some du => if g sname = 0 then du.1 g else du.2 g }

/-- Modelled from the spec: `calculate_efficiency(h, trigger, ref_trigger)`
computes `N(trigger ∧ ref_trigger) / N(ref_trigger)`: the fired bin (index
1) of `trigger` within the fired bin of `ref_trigger`, divided by the sum
over the `trigger` axis of the fired bin of `ref_trigger` (the count
convention used by `calc_stat`'s four inputs).  A zero denominator
propagates as the junk value of division by zero. -/
def calculate_efficiency (h : Hist) (trigger ref_trigger : String) : Hist :=
  let num := select (select h trigger 1) ref_trigger 1
  let den := sumOver (select h ref_trigger 1) [trigger]
  { axes := h.axes.filter (fun ax => ax.name ≠ trigger ∧ ax.name ≠ ref_trigger),
    data := fun g => num.data g / den.data g }

/-- A dataset key: the dataset's name and whether it is real data (the
role used by `collect_hist`). -/
structure DSKey where
  name : String
  isData : Bool
  deriving DecidableEq, Repr

/-- A keyed collection of histograms (`dict[str | od.Dataset, hist.Hist]`). -/
def HDict : Type := List (DSKey × Hist)

/-- Look a histogram up by key name (missing keys give the empty junk
histogram; the source raises there and no verified property reaches it). -/
def dget (hs : HDict) (n : String) : Hist :=
  ((hs.find? (fun p => p.1.name = n)).map (·.2)).getD ⟨[], fun _ => 0⟩

/-- Sum a list of histograms bin by bin (axes taken from the first). -/
def sumHists (hs : List Hist) : Hist :=
  { axes := ((hs.head?).map (·.axes)).getD [],
    data := fun g => (hs.map (fun h => h.data g)).sum }

/-- Modelled from the spec: `collect_hist` merges per-dataset histograms
into the `{"data", "mc"}` shape; multiple datasets of one role are summed. -/
def collect_hist (hs : HDict) : HDict :=
  [(⟨"data", true⟩, sumHists ((hs.filter (fun p => p.1.isData)).map (·.2))),
   (⟨"mc", false⟩, sumHists ((hs.filter (fun p => ¬p.1.isData)).map (·.2)))]

theorem patch_agree (ns : List String) (g g' r : String → Nat)
    (h : ∀ n, n ∉ ns → g n = g' n) :
    ∀ n, patch g ns r n = patch g' ns r n := by
  intro n
  by_cases hn : n ∈ ns <;> simp [patch, hn, h n]

/-- `sumOver` preserves well-formedness. -/
theorem sumOver_wf {h : Hist} (hw : h.wf) (ns : List String) : (sumOver h ns).wf := by
  intro g g' hag
  simp only [sumOver]
  congr 1
  apply List.map_congr_left
  intro r _
  apply hw
  intro ax hax
  by_cases hn : ax.name ∈ (h.axes.filter (fun ax => ax.name ∈ ns)).map (·.name)
  · simp [patch, hn]
  · have hmem : ax.name ∉ ns := by
      intro hc
      exact hn (List.mem_map.mpr ⟨ax, List.mem_filter.mpr ⟨hax, by simpa using hc⟩, rfl⟩)
    have : ax ∈ (sumOver h ns).axes := by
      simp only [sumOver, List.mem_filter]
      exact ⟨hax, by simpa using hmem⟩
    simp [patch, hn, hag ax this]

/-- `select` preserves well-formedness. -/
theorem select_wf {h : Hist} (hw : h.wf) (n : String) (v : Nat) : (select h n v).wf := by
  intro g g' hag
  apply hw
  intro ax hax
  by_cases hn : ax.name = n
  · simp [override, hn]
  · have : ax ∈ (select h n v).axes := by
      simp only [select, List.mem_filter]
      exact ⟨hax, by simpa using hn⟩
    simp [override, hn, hag ax this]

/-- `calculate_efficiency` preserves well-formedness. -/
theorem calculate_efficiency_wf {h : Hist} (hw : h.wf) (t r : String) :
    (calculate_efficiency h t r).wf := by
  intro g g' hag
  simp only [calculate_efficiency]
  have hwn := select_wf (select_wf hw t 1) r 1
  have hwd := sumOver_wf (select_wf hw r 1) [t]
  congr 1
  · apply hwn
    intro ax hax2
    simp only [select, List.mem_filter, decide_eq_true_eq] at hax2
    apply hag
    simp only [calculate_efficiency, List.mem_filter]
    refine ⟨hax2.1.1, ?_⟩
    simp only [decide_eq_true_eq]
    exact ⟨hax2.1.2, hax2.2⟩
  · apply hwd
    intro ax hax2
    simp only [sumOver, select, List.mem_filter, decide_eq_true_eq] at hax2
    apply hag
    simp only [calculate_efficiency, List.mem_filter]
    refine ⟨hax2.1.1, ?_⟩
    simp only [decide_eq_true_eq]
    refine ⟨by simpa using hax2.2, hax2.1.2⟩

/-! ## Bin-indexed in-place writes

The source's calculators loop over bins (`loop_hists`) and assign into an
output histogram through bin-indexed views.  A single write touches every
bin whose coordinates on the key names equal the iteration's coordinates;
the loop is a left fold of such writes. -/

/-- The side-output mapping (`store_hists`) shared between calculators. -/
def Store : Type := String → Option Hist

/-- One bin-indexed write: on bins agreeing with the iteration assignment
`a` on the key `names`, the value becomes `V g' old`; others are kept. -/
def maskWrite (names : List String) (a : String → Nat)
    (V : (String → Nat) → ℚ → ℚ) (out : Hist) : Hist :=
  { out with data := fun g' =>
      if names.all fun n => decide (g' n = a n) then V g' (out.data g') else out.data g' }

/-- One loop iteration: skip guards the write. -/
def maskStep (names : List String) (skip : (String → Nat) → Bool)
    (V : (String → Nat) → (String → Nat) → ℚ → ℚ) (out : Hist) (a : String → Nat) : Hist :=
  if skip a then out else maskWrite names a (V a) out

theorem maskStep_axes (names skip V out a) :
    (maskStep names skip V out a).axes = out.axes := by
  unfold maskStep maskWrite
  split <;> rfl

theorem maskFold_axes (names skip V) (L : List (String → Nat)) (init : Hist) :
    (L.foldl (maskStep names skip V) init).axes = init.axes := by
  induction L generalizing init with
  | nil => rfl
  | cons a rest ih => rw [List.foldl_cons, ih, maskStep_axes]

/-- Bins touched by no iteration keep their initial value. -/
theorem maskFold_untouched (names : List String) (skip : (String → Nat) → Bool)
    (V : (String → Nat) → (String → Nat) → ℚ → ℚ)
    (L : List (String → Nat)) (init : Hist) (gq : String → Nat)
    (h : ∀ a ∈ L, skip a = true ∨ ¬(∀ n ∈ names, gq n = a n)) :
    (L.foldl (maskStep names skip V) init).data gq = init.data gq := by
  induction L generalizing init with
  | nil => rfl
  | cons a rest ih =>
      rw [List.foldl_cons]
      rw [ih _ (fun b hb => h b (List.mem_cons_of_mem _ hb))]
      rcases h a (List.mem_cons_self _ _) with hs | hna
      · simp [maskStep, hs]
      · unfold maskStep maskWrite
        split
        · rfl
        · have : ¬(names.all fun n => decide (gq n = a n)) = true := by
            simp only [List.all_eq_true, decide_eq_true_eq]
            exact hna
          simp [this]

/-- If some non-skipped iteration matches the bin, and every matching
non-skipped iteration writes the same value there, the final value is that
value. -/
theorem maskFold_write (names : List String) (skip : (String → Nat) → Bool)
    (V : (String → Nat) → (String → Nat) → ℚ → ℚ)
    (L : List (String → Nat)) (init : Hist) (gq : String → Nat) (v : ℚ)
    (hval : ∀ a ∈ L, skip a = false → (∀ n ∈ names, gq n = a n) → ∀ old, V a gq old = v)
    (hex : ∃ a ∈ L, skip a = false ∧ (∀ n ∈ names, gq n = a n)) :
    (L.foldl (maskStep names skip V) init).data gq = v := by
  induction L generalizing init with
  | nil => obtain ⟨a, ha, _⟩ := hex; cases ha
  | cons a rest ih =>
      rw [List.foldl_cons]
      by_cases hrest : ∃ b ∈ rest, skip b = false ∧ (∀ n ∈ names, gq n = b n)
      · exact ih _ (fun b hb => hval b (List.mem_cons_of_mem _ hb)) hrest
      · obtain ⟨a', ha', hsk, hag⟩ := hex
        rcases List.mem_cons.mp ha' with rfl | hmem
        · rw [maskFold_untouched]
          · unfold maskStep maskWrite
            rw [if_neg (by simp [hsk])]
            have hpred : (names.all fun n => decide (gq n = a' n)) = true := by
              simp only [List.all_eq_true, decide_eq_true_eq]
              exact hag
            simp only [hpred, if_true]
            exact hval a' (List.mem_cons_self _ _) hsk hag _
          · intro b hb
            by_cases hs : skip b = true
            · exact Or.inl hs
            · refine Or.inr fun hagb => hrest ⟨b, hb, by simpa using hs, hagb⟩
        · exact absurd ⟨a', hmem, hsk, hag⟩ hrest

/-! ## `calc_stat` (source: `uncertainties.py`, lines 16–85) -/

/-- The `h[sum]` input of `calc_stat`: the slice's value summed over the
trigger axis. -/
def trigSum (h : Hist) (trigger : String) (g : String → Nat) : ℚ :=
  let size := ((h.axes.find? fun ax => ax.name = trigger).map (·.size)).getD 0
  ((List.range size).map fun v => h.data (override g trigger v)).sum

/-- `calc_stat`: build a "stat" variation histogram over all axes except
the trigger and reference-trigger axes; loop over the bins of the data and
MC histograms excluding the trigger axis; skip iterations whose
reference-trigger component is falsy (`if not idx.pop(ref_trigger)`); for
the rest write `error_func(data[1], data[sum], mc[1], mc[sum])` into the
(down, up) bins addressed by the remaining coordinates. -/
def calc_stat (histograms : HDict) (trigger ref_trigger : String)
    (store_hists : Store) (error_func : ℚ → ℚ → ℚ → ℚ → ℚ × ℚ) : Hist :=
  let hd := dget histograms "data"
  let hm := dget histograms "mc"
  let outAxes := hd.axes.filter fun ax => ax.name ≠ trigger ∧ ax.name ≠ ref_trigger
  let loopAxes := hd.axes.filter fun ax => ax.name ≠ trigger
  (assignments loopAxes).foldl
    (maskStep (outAxes.map (·.name))
      (fun a => a ref_trigger == 0)
      (fun a gq old =>
        let r := error_func (hd.data (override a trigger 1)) (trigSum hd trigger a)
                            (hm.data (override a trigger 1)) (trigSum hm trigger a)
        if gq "stat" = 0 then r.1 else if gq "stat" = 1 then r.2 else old))
    (syst_hist outAxes "stat" none)

theorem mem_filter_name_notin {axes : List Axis} {p : Axis → Prop} [DecidablePred p]
    {n : String} (hnot : ∀ ax ∈ axes, p ax → ax.name ≠ n) :
    n ∉ (axes.filter fun ax => p ax).map (·.name) := by
  intro hc
  obtain ⟨ax, hax, rfl⟩ := List.mem_map.mp hc
  have := List.mem_filter.mp hax
  exact hnot ax this.1 (by simpa using this.2) rfl

theorem nodup_filter_names {axes : List Axis} (hnd : (axes.map (·.name)).Nodup)
    (p : Axis → Prop) [DecidablePred p] :
    ((axes.filter fun ax => p ax).map (·.name)).Nodup :=
  hnd.sublist (List.Sublist.map _ (List.filter_sublist _))

/-- C2 (amended): `calc_stat` skips iterations by the reference-trigger
*bin index* (the "did not fire" category, index 0), not by the stored
count; every output bin is computed from the reference-fired (index 1)
slice via `error_func`, regardless of the count values in that slice. -/
theorem calc_stat_fills_every_bin (histograms : HDict) (trigger ref_trigger : String)
    (store_hists : Store) (error_func : ℚ → ℚ → ℚ → ℚ → ℚ × ℚ)
    (hd hm : Hist) (hhd : dget histograms "data" = hd) (hhm : dget histograms "mc" = hm)
    (hwd : hd.wf) (hwm : hm.wf) (haxes : hm.axes = hd.axes)
    (hnd : (hd.axes.map (·.name)).Nodup)
    (href : (⟨ref_trigger, 2⟩ : Axis) ∈ hd.axes)
    (htr : trigger ≠ ref_trigger)
    (hstat : ∀ ax ∈ hd.axes, ax.name ≠ "stat")
    (g : String → Nat)
    (hval : ∀ ax ∈ hd.axes, g ax.name < ax.size)
    (hgref : g ref_trigger = 1)
    (b : Nat) (hb : b < 2) :
    (calc_stat histograms trigger ref_trigger store_hists error_func).data
        (override g "stat" b)
      = (if b = 0
          then (error_func (hd.data (override g trigger 1)) (trigSum hd trigger g)
                  (hm.data (override g trigger 1)) (trigSum hm trigger g)).1
          else (error_func (hd.data (override g trigger 1)) (trigSum hd trigger g)
                  (hm.data (override g trigger 1)) (trigSum hm trigger g)).2) := by
  unfold calc_stat
  rw [hhd, hhm]
  set outAxes := hd.axes.filter (fun ax => ax.name ≠ trigger ∧ ax.name ≠ ref_trigger) with houtAxes
  set loopAxes := hd.axes.filter (fun ax => ax.name ≠ trigger) with hloopAxes
  have hloopnd : (loopAxes.map (·.name)).Nodup := nodup_filter_names hnd _
  have hrefloop : (⟨ref_trigger, 2⟩ : Axis) ∈ loopAxes := by
    rw [hloopAxes]
    exact List.mem_filter.mpr ⟨href, by simpa using htr.symm⟩
  have hrefname : ref_trigger ∈ loopAxes.map (·.name) :=
    List.mem_map.mpr ⟨⟨ref_trigger, 2⟩, hrefloop, rfl⟩
  -- agreement of a matching non-skipped iteration with `g` on all data axes names
  have hagree : ∀ a ∈ assignments loopAxes,
      ((a ref_trigger == 0) = false) → (∀ n ∈ outAxes.map (·.name), override g "stat" b n = a n) →
      ∀ ax ∈ hd.axes, ∀ v : Nat,
        override a trigger v ax.name = override g trigger v ax.name := by
    intro a hmem hskip hag ax hax v
    by_cases htrig : ax.name = trigger
    · simp [override, htrig]
    · rw [override_other _ _ htrig, override_other _ _ htrig]
      by_cases hrefn : ax.name = ref_trigger
      · have haref : a ref_trigger < 2 := by
          simpa using mem_assignments_lt hmem hloopnd ⟨ref_trigger, 2⟩ hrefloop
        have haref1 : a ref_trigger = 1 := by
          have : a ref_trigger ≠ 0 := by simpa using hskip
          omega
        rw [hrefn, haref1, hgref]
      · have hout : ax.name ∈ outAxes.map (·.name) := by
          refine List.mem_map.mpr ⟨ax, ?_, rfl⟩
          rw [houtAxes]
          exact List.mem_filter.mpr ⟨hax, by simp [htrig, hrefn]⟩
        have h1 := hag ax.name hout
        rw [override_other _ _ (hstat ax hax)] at h1
        exact h1.symm
  apply maskFold_write
  · -- every matching non-skipped iteration writes the claimed value
    intro a hmem hskip hag old
    have hreads : ∀ v : Nat, hd.data (override a trigger v) = hd.data (override g trigger v) :=
      fun v => hwd _ _ (fun ax hax => hagree a hmem hskip hag ax hax v)
    have hreadsm : ∀ v : Nat, hm.data (override a trigger v) = hm.data (override g trigger v) :=
      fun v => hwm _ _ (fun ax hax => hagree a hmem hskip hag ax (haxes ▸ hax) v)
    have hsumgen : ∀ h : Hist,
        (∀ v : Nat, h.data (override a trigger v) = h.data (override g trigger v)) →
        trigSum h trigger a = trigSum h trigger g := by
      intro h hr
      unfold trigSum
      show ((List.range _).map fun v => h.data (override a trigger v)).sum
        = ((List.range _).map fun v => h.data (override g trigger v)).sum
      exact congrArg List.sum (List.map_congr_left fun v _ => hr v)
    have hsums : trigSum hd trigger a = trigSum hd trigger g := hsumgen hd hreads
    have hsumsm : trigSum hm trigger a = trigSum hm trigger g := hsumgen hm hreadsm
    have hstatb : override g "stat" b "stat" = b := override_same _ _ _
    have hb' : b = 0 ∨ b = 1 := by omega
    rcases hb' with rfl | rfl
    · simp [hstatb, hreads 1, hreadsm 1, hsums, hsumsm]
    · simp [hstatb, hreads 1, hreadsm 1, hsums, hsumsm]
  · -- a matching non-skipped iteration exists: the restriction of `g`
    refine ⟨restrictTo loopAxes g, ?_, ?_, ?_⟩
    · exact restrictTo_mem _ _
        (fun ax hax => hval ax (List.mem_filter.mp hax).1) hloopnd
    · have : restrictTo loopAxes g ref_trigger = 1 := by
        rw [restrictTo, if_pos hrefname, hgref]
      simp [this]
    · intro n hn
      obtain ⟨ax, haxout, rfl⟩ := List.mem_map.mp hn
      have haxhd : ax ∈ hd.axes := (List.mem_filter.mp haxout).1
      have hcond := (List.mem_filter.mp haxout).2
      simp only [decide_eq_true_eq] at hcond
      have hloopmem : ax.name ∈ loopAxes.map (·.name) := by
        refine List.mem_map.mpr ⟨ax, ?_, rfl⟩
        exact List.mem_filter.mpr ⟨haxhd, by simpa using hcond.1⟩
      rw [override_other _ _ (hstat ax haxhd), restrictTo, if_pos hloopmem]

/-- C2 counterexample: with both reference-passing counts zero in the
sampled bin (all four `error_func` inputs vanish), `calc_stat` still
computes the bin — the guard tests the reference-trigger bin *index*, not
the stored count — so the output bin holds the `error_func` result `5`
rather than the initialized default `0`. -/
theorem calc_stat_zero_count_counterexample :
    (let hd : Hist := ⟨[⟨"t", 2⟩, ⟨"r", 2⟩], fun _ => 0⟩
     let hists : HDict := [(⟨"data", true⟩, hd), (⟨"mc", false⟩, hd)]
     let out := calc_stat hists "t" "r" (fun _ => none) (fun _ _ _ _ => ((5 : ℚ), (7 : ℚ)))
     let g : String → Nat := override (fun _ => 0) "r" 1
     hd.data (override g "t" 1) = 0 ∧ trigSum hd "t" g = 0 ∧
     (syst_hist [] "stat" none).data (override (fun _ => 0) "stat" 0) = 0 ∧
     out.data (override (fun _ => 0) "stat" 0) = 5) := by
  exact ⟨rfl, by norm_num [trigSum, List.range_succ], rfl, rfl⟩

/-- Witness for `calc_stat_fills_every_bin` at a concrete input. -/
theorem calc_stat_fills_every_bin_witness :
    (calc_stat
        [(⟨"data", true⟩, ⟨[⟨"t", 2⟩, ⟨"r", 2⟩], fun g => ((g "t" : ℚ) + 2 * g "r")⟩),
         (⟨"mc", false⟩, ⟨[⟨"t", 2⟩, ⟨"r", 2⟩], fun g => ((g "t" : ℚ) + 1)⟩)]
        "t" "r" (fun _ => none) (fun a b c d => (a / b, c / d))).data
      (override (override (fun _ => 0) "r" 1) "stat" 0) = 3 / 5 := by
  have h := calc_stat_fills_every_bin
    [(⟨"data", true⟩, ⟨[⟨"t", 2⟩, ⟨"r", 2⟩], fun g => ((g "t" : ℚ) + 2 * g "r")⟩),
     (⟨"mc", false⟩, ⟨[⟨"t", 2⟩, ⟨"r", 2⟩], fun g => ((g "t" : ℚ) + 1)⟩)]
    "t" "r" (fun _ => none) (fun a b c d => (a / b, c / d))
    ⟨[⟨"t", 2⟩, ⟨"r", 2⟩], fun g => ((g "t" : ℚ) + 2 * g "r")⟩
    ⟨[⟨"t", 2⟩, ⟨"r", 2⟩], fun g => ((g "t" : ℚ) + 1)⟩
    rfl rfl
    (by
      intro g g' hag
      have h1 := hag ⟨"t", 2⟩ (by simp)
      have h2 := hag ⟨"r", 2⟩ (by simp)
      simp only at h1 h2
      simp [h1, h2])
    (by
      intro g g' hag
      have h1 := hag ⟨"t", 2⟩ (by simp)
      simp only at h1
      simp [h1])
    rfl (by decide) (by decide) (by decide) (by decide)
    (override (fun _ => 0) "r" 1) (by decide) (by decide) 0 (by decide)
  rw [h]
  have hrt : ("r" : String) ≠ "t" := by decide
  norm_num [trigSum, override, List.range_succ, hrt]

/-! ## `calc_corr` (source: `uncertainties.py`, lines 88–196) -/

/-- The MC histogram reduced to the trigger axes and the correlation
variables (source line 149). -/
def corrReduced (mc0 : Hist) (trigger ref_trigger : String)
    (corr_variables : List String) : Hist :=
  reduce_hist_exclude mc0 ([trigger, ref_trigger] ++ corr_variables)

/-- The correlation-variable axes that survive the reduction, in axis
order (source line 152). -/
def corrAxesOf (mc0 : Hist) (trigger ref_trigger : String)
    (corr_variables : List String) : List Axis :=
  (corrReduced mc0 trigger ref_trigger corr_variables).axes.filter
    fun ax => ax.name ∉ [trigger, ref_trigger]

/-- The auto-derived store tag of `calc_corr` (source line 183):
`"corr"` when no correlation variables survive, otherwise `"corr_"`
followed by the correlation variable names joined with `"_"`. -/
def corrTag (corr_vars : List String) : String :=
  "corr" ++ (if corr_vars.isEmpty then "" else "_" ++ String.intercalate "_" corr_vars)

/-- The per-bin correlation factor: `corr_func` applied to the trigger-axes
projection of the slice of the reduced MC histogram at a correlation bin
(source lines 166–168). -/
def corrValue (mc0 : Hist) (trigger ref_trigger : String)
    (corr_variables : List String) (corr_func : Hist → ℚ) (a : String → Nat) : ℚ :=
  corr_func (project
    (sliceNamed (corrReduced mc0 trigger ref_trigger corr_variables)
      ((corrAxesOf mc0 trigger ref_trigger corr_variables).map (·.name)) a)
    [trigger, ref_trigger])

/-- `calc_corr`: compute the correlation bias of the trigger pair from the
MC histogram, binned in the correlation variables; broadcast it across the
full (unreduced) binning; store the intermediate correlation histogram in
`store_hists`; return the `(sf - sf·corr, sf + sf·corr)` variation band.
The source interleaves the two bin loops (correlation histogram and
broadcast) in one pass; the two folds here write to the two separate
histograms in the same order. -/
def calc_corr (histograms : HDict) (trigger ref_trigger : String) (store_hists : Store)
    (corr_variables : List String) (corr_func : Hist → ℚ) (tag : Option String) :
    Hist × Store :=
  let mc0 := dget histograms "mc"
  let unred0 := sumOver mc0 [trigger, ref_trigger]
  let corrAxes := corrAxesOf mc0 trigger ref_trigger corr_variables
  let corr_vars := corrAxes.map (·.name)
  let corrHist0 : Hist :=
    if corr_vars.isEmpty then ⟨[⟨"", 1⟩], fun _ => 0⟩
    else project (corrReduced mc0 trigger ref_trigger corr_variables) corr_vars
  let cval := corrValue mc0 trigger ref_trigger corr_variables corr_func
  let corrHist := (assignments corrAxes).foldl
    (maskStep corr_vars (fun _ => false) (fun a _ _ => cval a)) corrHist0
  let unredF := (assignments corrAxes).foldl
    (maskStep corr_vars (fun _ => false) (fun a _ _ => cval a)) unred0
  let t := tag.getD (corrTag corr_vars)
  let eff := fun dt => calculate_efficiency (dget histograms dt) trigger ref_trigger
  let sf := fun g => (eff "data").data g / (eff "mc").data g
  (syst_hist unredF.axes t
    (some (fun g => sf g - sf g * unredF.data g, fun g => sf g + sf g * unredF.data g)),
   fun k => if k = t then some corrHist else store_hists k)

/-- C8: `calc_corr` stores exactly one entry — the intermediate
correlation histogram — under the caller-supplied tag when given, else
under the auto-derived tag (`"corr"`, or `"corr_"` + the correlation
variable names joined with `"_"`); every other key of `store_hists` is
left untouched. -/
theorem calc_corr_store_single_entry (histograms : HDict) (trigger ref_trigger : String)
    (store_hists : Store) (corr_variables : List String) (corr_func : Hist → ℚ)
    (tag : Option String) :
    ∃ ch : Hist,
      (calc_corr histograms trigger ref_trigger store_hists corr_variables
          corr_func tag).2
        = fun k =>
            if k = tag.getD (corrTag ((corrAxesOf (dget histograms "mc") trigger ref_trigger
                corr_variables).map (·.name)))
            then some ch else store_hists k :=
  ⟨_, rfl⟩

theorem corrAxes_sublist (mc0 : Hist) (trigger ref_trigger : String)
    (corr_variables : List String) :
    (corrAxesOf mc0 trigger ref_trigger corr_variables).Sublist mc0.axes := by
  unfold corrAxesOf corrReduced reduce_hist_exclude sumOver
  exact (List.filter_sublist _).trans (List.filter_sublist _)

theorem corrAxes_sub_unred {mc0 : Hist} {trigger ref_trigger : String}
    {corr_variables : List String} {ax : Axis}
    (h : ax ∈ corrAxesOf mc0 trigger ref_trigger corr_variables) :
    ax ∈ (sumOver mc0 [trigger, ref_trigger]).axes := by
  unfold corrAxesOf corrReduced reduce_hist_exclude at h
  unfold sumOver at h ⊢
  simp only [List.mem_filter] at h ⊢
  exact ⟨h.1.1, h.2⟩

/-- C4: every bin of the variation histogram returned by `calc_corr` holds
`(sf - sf·corr, sf + sf·corr)` for the (down, up) categories, where `sf`
is the per-bin data/MC efficiency ratio over the full unreduced binning
and `corr` is the factor computed by `corr_func` on the MC histogram
projected onto exactly the trigger and reference-trigger axes, broadcast
from the bin's correlation-variable coordinates. -/
theorem calc_corr_band (histograms : HDict) (trigger ref_trigger : String)
    (store_hists : Store) (corr_variables : List String) (corr_func : Hist → ℚ)
    (tag : Option String)
    (hd0 mc0 : Hist) (hhd : dget histograms "data" = hd0) (hhm : dget histograms "mc" = mc0)
    (hwd : hd0.wf) (hwm : mc0.wf) (haxes : hd0.axes = mc0.axes)
    (hnd : (mc0.axes.map (·.name)).Nodup)
    (g : String → Nat)
    (hval : ∀ ax ∈ (sumOver mc0 [trigger, ref_trigger]).axes, g ax.name < ax.size)
    (tname : String)
    (htn : tag.getD (corrTag ((corrAxesOf mc0 trigger ref_trigger
        corr_variables).map (·.name))) = tname)
    (htnot : tname ∉ mc0.axes.map (·.name))
    (b : Nat) (hb : b < 2) :
    (calc_corr histograms trigger ref_trigger store_hists corr_variables
        corr_func tag).1.data (override g tname b)
      = (if b = 0
          then ((calculate_efficiency hd0 trigger ref_trigger).data g
                  / (calculate_efficiency mc0 trigger ref_trigger).data g)
              - ((calculate_efficiency hd0 trigger ref_trigger).data g
                  / (calculate_efficiency mc0 trigger ref_trigger).data g)
                * corrValue mc0 trigger ref_trigger corr_variables corr_func g
          else ((calculate_efficiency hd0 trigger ref_trigger).data g
                  / (calculate_efficiency mc0 trigger ref_trigger).data g)
              + ((calculate_efficiency hd0 trigger ref_trigger).data g
                  / (calculate_efficiency mc0 trigger ref_trigger).data g)
                * corrValue mc0 trigger ref_trigger corr_variables corr_func g) := by
  have hcsub := corrAxes_sublist mc0 trigger ref_trigger corr_variables
  have hcnd : ((corrAxesOf mc0 trigger ref_trigger corr_variables).map (·.name)).Nodup :=
    hnd.sublist (hcsub.map _)
  have hcnames : ∀ n ∈ (corrAxesOf mc0 trigger ref_trigger corr_variables).map (·.name),
      n ∈ mc0.axes.map (·.name) := fun n hn => (hcsub.map (·.name)).mem hn
  -- the written value is the same for every iteration matching `g`
  have hsame : ∀ a, (∀ n ∈ (corrAxesOf mc0 trigger ref_trigger corr_variables).map (·.name),
      override g tname b n = a n) →
      corrValue mc0 trigger ref_trigger corr_variables corr_func a
        = corrValue mc0 trigger ref_trigger corr_variables corr_func g := by
    intro a hag
    have hga : ∀ n ∈ (corrAxesOf mc0 trigger ref_trigger corr_variables).map (·.name),
        a n = g n := by
      intro n hn
      have hne : n ≠ tname := fun hc => htnot (hc ▸ hcnames n hn)
      have := hag n hn
      rw [override_other _ _ hne] at this
      exact this.symm
    have hwmr : (corrReduced mc0 trigger ref_trigger corr_variables).wf := by
      unfold corrReduced reduce_hist_exclude
      exact sumOver_wf hwm _
    have hdg : ∀ g' : String → Nat,
        (corrReduced mc0 trigger ref_trigger corr_variables).data
          (patch g' ((corrAxesOf mc0 trigger ref_trigger corr_variables).map (·.name)) a)
        = (corrReduced mc0 trigger ref_trigger corr_variables).data
          (patch g' ((corrAxesOf mc0 trigger ref_trigger corr_variables).map (·.name)) g) := by
      intro g'
      apply hwmr
      intro ax hax
      by_cases hin : ax.name ∈ (corrAxesOf mc0 trigger ref_trigger corr_variables).map (·.name)
      · simp [patch, hin, hga ax.name hin]
      · simp [patch, hin]
    unfold corrValue sliceNamed
    simp only [hdg]
  have heffd : (calculate_efficiency hd0 trigger ref_trigger).data (override g tname b)
      = (calculate_efficiency hd0 trigger ref_trigger).data g := by
    apply calculate_efficiency_wf hwd
    intro ax hax
    have : ax.name ≠ tname := by
      intro hc
      apply htnot
      rw [← hc, ← haxes]
      exact List.mem_map.mpr ⟨ax, (List.mem_filter.mp hax).1, rfl⟩
    exact override_other _ _ this
  have heffm : (calculate_efficiency mc0 trigger ref_trigger).data (override g tname b)
      = (calculate_efficiency mc0 trigger ref_trigger).data g := by
    apply calculate_efficiency_wf hwm
    intro ax hax
    have : ax.name ≠ tname := by
      intro hc
      apply htnot
      rw [← hc]
      exact List.mem_map.mpr ⟨ax, (List.mem_filter.mp hax).1, rfl⟩
    exact override_other _ _ this
  have hbroadcast :
      ((assignments (corrAxesOf mc0 trigger ref_trigger corr_variables)).foldl
        (maskStep ((corrAxesOf mc0 trigger ref_trigger corr_variables).map (·.name))
          (fun _ => false)
          (fun a _ _ => corrValue mc0 trigger ref_trigger corr_variables corr_func a))
        (sumOver mc0 [trigger, ref_trigger])).data (override g tname b)
      = corrValue mc0 trigger ref_trigger corr_variables corr_func g := by
    apply maskFold_write
    · intro a _ _ hag old
      exact hsame a hag
    · refine ⟨restrictTo (corrAxesOf mc0 trigger ref_trigger corr_variables) g, ?_, rfl, ?_⟩
      · exact restrictTo_mem _ _ (fun ax hax => hval ax (corrAxes_sub_unred hax)) hcnd
      · intro n hn
        have hne : n ≠ tname := fun hc => htnot (hc ▸ hcnames n hn)
        rw [override_other _ _ hne, restrictTo, if_pos hn]
  simp only [calc_corr, hhd, hhm, htn, syst_hist]
  rw [hbroadcast, heffd, heffm, override_same]

/-- Witness for `calc_corr_band` at a concrete input, binned in one
correlation variable `x`. -/
theorem calc_corr_band_witness :
    (calc_corr
        [(⟨"data", true⟩,
            ⟨[⟨"t", 2⟩, ⟨"r", 2⟩, ⟨"x", 2⟩], fun g => ((g "t" : ℚ) + 2 * g "r" + g "x")⟩),
         (⟨"mc", false⟩,
            ⟨[⟨"t", 2⟩, ⟨"r", 2⟩, ⟨"x", 2⟩], fun g => ((g "t" : ℚ) + 1)⟩)]
        "t" "r" (fun _ => none) ["x"] (fun h => h.data fun _ => 0) none).1.data
      (override (fun _ => 0) "corr_x" 0)
    = ((calculate_efficiency
          ⟨[⟨"t", 2⟩, ⟨"r", 2⟩, ⟨"x", 2⟩], fun g => ((g "t" : ℚ) + 2 * g "r" + g "x")⟩
          "t" "r").data (fun _ => 0)
        / (calculate_efficiency
          ⟨[⟨"t", 2⟩, ⟨"r", 2⟩, ⟨"x", 2⟩], fun g => ((g "t" : ℚ) + 1)⟩
          "t" "r").data (fun _ => 0))
      - ((calculate_efficiency
          ⟨[⟨"t", 2⟩, ⟨"r", 2⟩, ⟨"x", 2⟩], fun g => ((g "t" : ℚ) + 2 * g "r" + g "x")⟩
          "t" "r").data (fun _ => 0)
        / (calculate_efficiency
          ⟨[⟨"t", 2⟩, ⟨"r", 2⟩, ⟨"x", 2⟩], fun g => ((g "t" : ℚ) + 1)⟩
          "t" "r").data (fun _ => 0))
        * corrValue ⟨[⟨"t", 2⟩, ⟨"r", 2⟩, ⟨"x", 2⟩], fun g => ((g "t" : ℚ) + 1)⟩
            "t" "r" ["x"] (fun h => h.data fun _ => 0) (fun _ => 0) := by
  have h := calc_corr_band
    [(⟨"data", true⟩,
        ⟨[⟨"t", 2⟩, ⟨"r", 2⟩, ⟨"x", 2⟩], fun g => ((g "t" : ℚ) + 2 * g "r" + g "x")⟩),
     (⟨"mc", false⟩,
        ⟨[⟨"t", 2⟩, ⟨"r", 2⟩, ⟨"x", 2⟩], fun g => ((g "t" : ℚ) + 1)⟩)]
    "t" "r" (fun _ => none) ["x"] (fun h => h.data fun _ => 0) none
    ⟨[⟨"t", 2⟩, ⟨"r", 2⟩, ⟨"x", 2⟩], fun g => ((g "t" : ℚ) + 2 * g "r" + g "x")⟩
    ⟨[⟨"t", 2⟩, ⟨"r", 2⟩, ⟨"x", 2⟩], fun g => ((g "t" : ℚ) + 1)⟩
    rfl rfl
    (by
      intro g g' hag
      have h1 := hag ⟨"t", 2⟩ (by simp)
      have h2 := hag ⟨"r", 2⟩ (by simp)
      have h3 := hag ⟨"x", 2⟩ (by simp)
      simp only at h1 h2 h3
      simp [h1, h2, h3])
    (by
      intro g g' hag
      have h1 := hag ⟨"t", 2⟩ (by simp)
      simp only at h1
      simp [h1])
    rfl (by decide)
    (fun _ => 0) (by decide)
    "corr_x" (by decide) (by decide)
    0 (by decide)
  rw [h]
  simp

/-! ## `calc_auxiliary_unc` (source: `uncertainties.py`, lines 199–278) -/

/-- The result of a deviation function: a symmetric array, or a separate
(down, up) pair (source: `dev_func` return convention, lines 213–216). -/
inductive DevOut where
  | sym (a : (String → Nat) → ℚ)
  | asym (d u : (String → Nat) → ℚ)

/-- A deviation function: receives the axes of the auxiliary-binned
scale-factor array, the auxiliary axis names, and the deviation array, and
reduces the deviations over the auxiliary axes. -/
def DevF : Type :=
  List Axis → List String → ((String → Nat) → ℚ) → DevOut

/-- Maximum of a list of absolute (nonnegative) values. -/
def absMax (l : List ℚ) : ℚ := l.foldr max 0

/-- The registered deviation functions (source lines 199–203).  The `std`
entry is modelled by the mean squared deviation; the code returns its
square root, which no verified property inspects. -/
def dev_funcs : List (String × DevF) :=
  [("max_dev_sym", fun axes auxNames dev =>
      .sym fun gred =>
        absMax ((assignments (axes.filter fun ax => ax.name ∈ auxNames)).map
          fun rs => |dev (patch gred auxNames rs)|)),
   ("max_dev", fun axes auxNames dev =>
      .asym
        (fun gred =>
          |((assignments (axes.filter fun ax => ax.name ∈ auxNames)).map
              fun rs => dev (patch gred auxNames rs)).min?.getD 0|)
        (fun gred =>
          |((assignments (axes.filter fun ax => ax.name ∈ auxNames)).map
              fun rs => dev (patch gred auxNames rs)).max?.getD 0|)),
   ("std", fun axes auxNames dev =>
      .sym fun gred =>
        let l := (assignments (axes.filter fun ax => ax.name ∈ auxNames)).map
          fun rs => |dev (patch gred auxNames rs)|
        (l.map (fun x => x ^ 2)).sum / l.length - (l.sum / l.length) ^ 2)]

/-- A `dev_func` argument: a registered name, or a custom function. -/
inductive DevChoice where
  | named (s : String)
  | custom (f : DevF)

/-- The body of `calc_auxiliary_unc` after the deviation function has been
resolved (source lines 260–278): compare the scale factor retaining the
auxiliary axes with the nominal scale factor after reducing over them,
reduce the deviations with the deviation function, and return the
`(sf - dev_down, sf + dev_up)` band.  Data/MC bin alignment is by axis
name; this matches the source's positional array division on the
matching-axes inputs the verified properties quantify over. -/
def aux_unc_core (histograms : HDict) (trigger ref_trigger : String)
    (auxiliaries : List String) (apply_aux_to : String) (f : DevF) : Hist :=
  let nom := fun dt => reduce_hist_reduce (dget histograms dt) auxiliaries
  let eff := fun dt => calculate_efficiency (nom dt) trigger ref_trigger
  let sf : Hist := ⟨(eff "data").axes, fun g => (eff "data").data g / (eff "mc").data g⟩
  let applyTo := if apply_aux_to = "both" then ["data", "mc"] else [apply_aux_to]
  let effAux := fun dt =>
    if dt ∈ applyTo
    then calculate_efficiency (dget histograms dt) trigger ref_trigger
    else eff dt
  let sfAux : Hist :=
    ⟨(effAux "data").axes, fun g => (effAux "data").data g / (effAux "mc").data g⟩
  let dev := fun g => sfAux.data g - sf.data g
  let du := match f sfAux.axes auxiliaries dev with
            | .sym a => (a, a)
            | .asym d u => (d, u)
  syst_hist sf.axes ("aux" ++ String.intercalate "_" auxiliaries)
    (some (fun g => sf.data g - du.1 g, fun g => sf.data g + du.2 g))

/-- `calc_auxiliary_unc`: look the deviation function up first (an unknown
name is an immediate `KeyError`, before any histogram computation), then
run `aux_unc_core` with the resolved function. -/
def calc_auxiliary_unc (histograms : HDict) (trigger ref_trigger : String)
    (store_hists : Store) (auxiliaries : List String) (apply_aux_to : String)
    (dev_func : DevChoice) : Except String Hist :=
  match (match dev_func with
         | .named s =>
             match dev_funcs.lookup s with
             | some f => Except.ok f
             | none => Except.error ("KeyError: " ++ s)
         | .custom f => Except.ok f) with
  | .error e => .error e
  | .ok f =>
      Except.ok (aux_unc_core histograms trigger ref_trigger auxiliaries apply_aux_to f)

/-- C7: requesting a deviation function by a name not among the registered
ones (`max_dev_sym`, `max_dev`, `std`) fails with an uncaught lookup error
for every histogram input — before any histogram computation and with no
default substituted. -/
theorem calc_auxiliary_unc_unknown_name (histograms : HDict)
    (trigger ref_trigger : String) (store_hists : Store) (auxiliaries : List String)
    (apply_aux_to : String) (s : String)
    (hs : s ∉ ["max_dev_sym", "max_dev", "std"]) :
    calc_auxiliary_unc histograms trigger ref_trigger store_hists auxiliaries
        apply_aux_to (DevChoice.named s)
      = Except.error ("KeyError: " ++ s) := by
  simp only [List.mem_cons, List.not_mem_nil, or_false, not_or] at hs
  obtain ⟨h1, h2, h3⟩ := hs
  unfold calc_auxiliary_unc
  have b1 : (s == "max_dev_sym") = false := beq_eq_false_iff_ne.mpr h1
  have b2 : (s == "max_dev") = false := beq_eq_false_iff_ne.mpr h2
  have b3 : (s == "std") = false := beq_eq_false_iff_ne.mpr h3
  have hlook : dev_funcs.lookup s = none := by
    unfold dev_funcs
    simp [List.lookup, b1, b2, b3]
  simp [hlook]

/-- Witness for `calc_auxiliary_unc_unknown_name` at a concrete input. -/
theorem calc_auxiliary_unc_unknown_name_witness :
    calc_auxiliary_unc [] "t" "r" (fun _ => none) ["x"] "both"
        (DevChoice.named "median")
      = Except.error "KeyError: median" :=
  calc_auxiliary_unc_unknown_name [] "t" "r" (fun _ => none) ["x"] "both" "median"
    (by decide)

theorem assignments_all_one {axes : List Axis} (h : ∀ ax ∈ axes, ax.size = 1) :
    assignments axes = [fun _ => 0] := by
  induction axes with
  | nil => rfl
  | cons a rest ih =>
      have ha := h a (List.mem_cons_self _ _)
      rw [assignments, ih (fun ax hax => h ax (List.mem_cons_of_mem _ hax))]
      simp only [List.flatMap_cons, List.flatMap_nil, List.append_nil, ha, List.range_succ,
        List.range_zero, List.nil_append, List.map_cons, List.map_nil]
      congr 1
      funext n
      by_cases hn : n = a.name <;> simp [override, hn]

/-- Summing over axes that all have a single bin reads the single bin. -/
theorem sumOver_one_data {h : Hist} {auxiliaries : List String}
    (hone : ∀ ax ∈ h.axes, ax.name ∈ auxiliaries → ax.size = 1)
    (x : String → Nat) (hx : ∀ n ∈ auxiliaries, x n = 0) :
    (sumOver h auxiliaries).data x = h.data x := by
  unfold sumOver
  simp only []
  rw [assignments_all_one (fun ax hax => hone ax (List.mem_filter.mp hax).1
    (by simpa using (List.mem_filter.mp hax).2))]
  simp only [List.map_cons, List.map_nil, List.sum_cons, List.sum_nil, add_zero]
  congr 1
  funext n
  by_cases hn : n ∈ (h.axes.filter fun ax => ax.name ∈ auxiliaries).map (·.name)
  · obtain ⟨ax, haxm, hax⟩ := List.mem_map.mp hn
    have hmem : n ∈ auxiliaries := by
      have := (List.mem_filter.mp haxm).2
      rw [hax] at this
      simpa using this
    simp [patch, hn, (hx _ hmem)]
  · simp [patch, hn]

/-- Congruence for an outer reduction of two histograms whose removed axes
and removed-bin reads agree. -/
theorem sumOver_congr_outer (A B : Hist) (ns : List String) (q : String → Nat)
    (haxes : A.axes.filter (fun ax => ax.name ∈ ns)
      = B.axes.filter (fun ax => ax.name ∈ ns))
    (hdata : ∀ r, A.data (patch q ((A.axes.filter fun ax => ax.name ∈ ns).map (·.name)) r)
      = B.data (patch q ((A.axes.filter fun ax => ax.name ∈ ns).map (·.name)) r)) :
    (sumOver A ns).data q = (sumOver B ns).data q := by
  unfold sumOver
  simp only []
  rw [← haxes]
  exact congrArg List.sum (List.map_congr_left fun r _ => hdata r)

/-- With every auxiliary axis holding a single bin, the efficiency of the
auxiliary-reduced histogram agrees with the efficiency of the full
histogram at bins whose auxiliary coordinates are zero. -/
theorem eff_reduce_aux_one {h : Hist} (auxiliaries : List String)
    (trigger ref_trigger : String)
    (hone : ∀ ax ∈ h.axes, ax.name ∈ auxiliaries → ax.size = 1)
    (htaux : trigger ∉ auxiliaries) (hraux : ref_trigger ∉ auxiliaries)
    (q : String → Nat) (hq : ∀ n ∈ auxiliaries, q n = 0) :
    (calculate_efficiency (sumOver h auxiliaries) trigger ref_trigger).data q
      = (calculate_efficiency h trigger ref_trigger).data q := by
  unfold calculate_efficiency select
  simp only []
  congr 1
  · -- the numerators read the same bin
    apply sumOver_one_data hone
    intro n hn
    have hnt : n ≠ trigger := fun hc => htaux (hc ▸ hn)
    have hnr : n ≠ ref_trigger := fun hc => hraux (hc ▸ hn)
    rw [override_other _ _ hnt, override_other _ _ hnr]
    exact hq n hn
  · -- the denominators: same trigger axes, same bin reads
    apply sumOver_congr_outer
    · simp only [List.filter_filter]
      unfold sumOver
      simp only [List.filter_filter]
      apply List.filter_congr
      intro ax hax
      by_cases ht : ax.name = trigger
      · have hnaux : ax.name ∉ auxiliaries := ht ▸ htaux
        simp only [ht]
        simp only [List.mem_singleton, decide_True, Bool.true_and, Bool.and_eq_true,
          decide_eq_true_eq]
        simp [htaux]
      · simp [ht]
    · intro r
      apply sumOver_one_data hone
      intro n hn
      have hnt : n ≠ trigger := fun hc => htaux (hc ▸ hn)
      have hnr : n ≠ ref_trigger := fun hc => hraux (hc ▸ hn)
      rw [override_other _ _ hnr]
      have hnot : n ∉ ((((sumOver h auxiliaries).axes.filter
          fun ax => ax.name ≠ ref_trigger).filter
            fun ax => ax.name ∈ [trigger]).map (·.name)) := by
        intro hc
        obtain ⟨ax, haxm, hax⟩ := List.mem_map.mp hc
        have := (List.mem_filter.mp haxm).2
        rw [hax] at this
        simp only [List.mem_singleton, decide_eq_true_eq] at this
        exact hnt this
      rw [patch, if_neg hnot]
      exact hq n hn

/-- C5: with every auxiliary axis holding exactly one category,
`calc_auxiliary_unc` with `dev_func="max_dev_sym"` (and the default
`apply_aux_to="both"`) returns a zero-width band: at every bin, both the
down and the up category equal the nominal scale factor. -/
theorem calc_auxiliary_unc_single_category (histograms : HDict)
    (trigger ref_trigger : String) (store_hists : Store) (auxiliaries : List String)
    (hd0 mc0 : Hist) (hhd : dget histograms "data" = hd0) (hhm : dget histograms "mc" = mc0)
    (hwd : hd0.wf) (hwm : mc0.wf) (haxd : hd0.axes = mc0.axes)
    (hone : ∀ ax ∈ mc0.axes, ax.name ∈ auxiliaries → ax.size = 1)
    (htaux : trigger ∉ auxiliaries) (hraux : ref_trigger ∉ auxiliaries)
    (hsname : ∀ ax ∈ mc0.axes, ax.name ≠ "aux" ++ String.intercalate "_" auxiliaries)
    (g : String → Nat) (b : Nat) (hb : b < 2) :
    calc_auxiliary_unc histograms trigger ref_trigger store_hists auxiliaries "both"
        (DevChoice.named "max_dev_sym")
      = Except.ok (aux_unc_core histograms trigger ref_trigger auxiliaries "both"
          (fun axes auxNames dev => DevOut.sym fun gred =>
            absMax ((assignments (axes.filter fun ax => ax.name ∈ auxNames)).map
              fun rs => |dev (patch gred auxNames rs)|)))
    ∧ (aux_unc_core histograms trigger ref_trigger auxiliaries "both"
          (fun axes auxNames dev => DevOut.sym fun gred =>
            absMax ((assignments (axes.filter fun ax => ax.name ∈ auxNames)).map
              fun rs => |dev (patch gred auxNames rs)|))).data
        (override g ("aux" ++ String.intercalate "_" auxiliaries) b)
      = (calculate_efficiency (reduce_hist_reduce hd0 auxiliaries)
            trigger ref_trigger).data g
        / (calculate_efficiency (reduce_hist_reduce mc0 auxiliaries)
            trigger ref_trigger).data g := by
  have honed : ∀ ax ∈ hd0.axes, ax.name ∈ auxiliaries → ax.size = 1 := by
    rw [haxd]; exact hone
  have hsnamed : ∀ ax ∈ hd0.axes,
      ax.name ≠ "aux" ++ String.intercalate "_" auxiliaries := by
    rw [haxd]; exact hsname
  constructor
  · rfl
  · simp only [aux_unc_core, reduce_hist_reduce, hhd, hhm, syst_hist]
    simp only [ite_true]
    have hdata_in : (("data" : String) ∈ ["data", "mc"]) := by decide
    have hmc_in : (("mc" : String) ∈ ["data", "mc"]) := by decide
    simp only [if_pos hdata_in, if_pos hmc_in]
    -- the auxiliary axes of the auxiliary-binned scale factor all have one bin
    have honeaux : ∀ ax ∈ ((calculate_efficiency hd0 trigger ref_trigger).axes.filter
        fun ax => ax.name ∈ auxiliaries), ax.size = 1 := by
      intro ax hax
      have h1 := List.mem_filter.mp hax
      have h2 : ax ∈ hd0.axes := by
        have := h1.1
        unfold calculate_efficiency at this
        exact (List.mem_filter.mp this).1
      exact honed ax h2 (by simpa using h1.2)
    rw [assignments_all_one honeaux]
    set sname := "aux" ++ String.intercalate "_" auxiliaries with hsn
    set gq := override g sname b with hgq
    have hgqs : gq sname = b := override_same _ _ _
    -- the deviation vanishes at the patched point
    have hp : ∀ n ∈ auxiliaries, patch gq auxiliaries (fun _ => 0) n = 0 := by
      intro n hn
      simp [patch, hn]
    have hdevd : (calculate_efficiency (sumOver hd0 auxiliaries) trigger ref_trigger).data
        (patch gq auxiliaries fun _ => 0)
        = (calculate_efficiency hd0 trigger ref_trigger).data
          (patch gq auxiliaries fun _ => 0) :=
      eff_reduce_aux_one auxiliaries trigger ref_trigger honed htaux hraux _ hp
    have hdevm : (calculate_efficiency (sumOver mc0 auxiliaries) trigger ref_trigger).data
        (patch gq auxiliaries fun _ => 0)
        = (calculate_efficiency mc0 trigger ref_trigger).data
          (patch gq auxiliaries fun _ => 0) :=
      eff_reduce_aux_one auxiliaries trigger ref_trigger hone htaux hraux _ hp
    -- the nominal scale factor ignores the variation-axis coordinate
    have hnomd : (calculate_efficiency (sumOver hd0 auxiliaries) trigger ref_trigger).data gq
        = (calculate_efficiency (sumOver hd0 auxiliaries) trigger ref_trigger).data g := by
      apply calculate_efficiency_wf (sumOver_wf hwd _)
      intro ax hax
      have h2 : ax ∈ hd0.axes := by
        simp only [calculate_efficiency, sumOver, List.mem_filter] at hax
        exact hax.1.1
      exact override_other _ _ (hsnamed ax h2)
    have hnomm : (calculate_efficiency (sumOver mc0 auxiliaries) trigger ref_trigger).data gq
        = (calculate_efficiency (sumOver mc0 auxiliaries) trigger ref_trigger).data g := by
      apply calculate_efficiency_wf (sumOver_wf hwm _)
      intro ax hax
      have h2 : ax ∈ mc0.axes := by
        simp only [calculate_efficiency, sumOver, List.mem_filter] at hax
        exact hax.1.1
      exact override_other _ _ (hsname ax h2)
    simp only [List.map_cons, List.map_nil, absMax, List.foldr_cons, List.foldr_nil]
    rw [hdevd, hdevm]
    simp only [sub_self, abs_zero, max_self]
    rcases (by omega : b = 0 ∨ b = 1) with rfl | rfl
    · simp [hgqs, hnomd, hnomm]
    · simp [hgqs, hnomd, hnomm]

/-- Witness for `calc_auxiliary_unc_single_category` at a concrete input
with a single-category auxiliary axis `u`. -/
theorem calc_auxiliary_unc_single_category_witness :
    (aux_unc_core
        [(⟨"data", true⟩,
            ⟨[⟨"t", 2⟩, ⟨"r", 2⟩, ⟨"u", 1⟩], fun g => ((g "t" : ℚ) + 2 * g "r" + 1)⟩),
         (⟨"mc", false⟩,
            ⟨[⟨"t", 2⟩, ⟨"r", 2⟩, ⟨"u", 1⟩], fun g => ((g "t" : ℚ) + 1)⟩)]
        "t" "r" ["u"] "both"
        (fun axes auxNames dev => DevOut.sym fun gred =>
          absMax ((assignments (axes.filter fun ax => ax.name ∈ auxNames)).map
            fun rs => |dev (patch gred auxNames rs)|))).data
      (override (fun _ => 0) ("aux" ++ String.intercalate "_" ["u"]) 0)
    = (calculate_efficiency
          (reduce_hist_reduce
            ⟨[⟨"t", 2⟩, ⟨"r", 2⟩, ⟨"u", 1⟩], fun g => ((g "t" : ℚ) + 2 * g "r" + 1)⟩ ["u"])
          "t" "r").data (fun _ => 0)
      / (calculate_efficiency
          (reduce_hist_reduce
            ⟨[⟨"t", 2⟩, ⟨"r", 2⟩, ⟨"u", 1⟩], fun g => ((g "t" : ℚ) + 1)⟩ ["u"])
          "t" "r").data (fun _ => 0) :=
  (calc_auxiliary_unc_single_category
    [(⟨"data", true⟩,
        ⟨[⟨"t", 2⟩, ⟨"r", 2⟩, ⟨"u", 1⟩], fun g => ((g "t" : ℚ) + 2 * g "r" + 1)⟩),
     (⟨"mc", false⟩,
        ⟨[⟨"t", 2⟩, ⟨"r", 2⟩, ⟨"u", 1⟩], fun g => ((g "t" : ℚ) + 1)⟩)]
    "t" "r" (fun _ => none) ["u"]
    ⟨[⟨"t", 2⟩, ⟨"r", 2⟩, ⟨"u", 1⟩], fun g => ((g "t" : ℚ) + 2 * g "r" + 1)⟩
    ⟨[⟨"t", 2⟩, ⟨"r", 2⟩, ⟨"u", 1⟩], fun g => ((g "t" : ℚ) + 1)⟩
    rfl rfl
    (by
      intro g g' hag
      have h1 := hag ⟨"t", 2⟩ (by simp)
      have h2 := hag ⟨"r", 2⟩ (by simp)
      simp only at h1 h2
      simp [h1, h2])
    (by
      intro g g' hag
      have h1 := hag ⟨"t", 2⟩ (by simp)
      simp only at h1
      simp [h1])
    rfl (by decide) (by decide) (by decide) (by decide)
    (fun _ => 0) 0 (by decide)).2

/-! ## `TriggerSFConfig` (source: `__init__.py`, lines 27–134) -/

/-- A positional argument of an uncertainty entry (`*args`). -/
inductive Arg where
  | str (s : String)
  | nat (n : Nat)
  deriving DecidableEq, Repr

/-- Keyword arguments, first match wins on lookup. -/
abbrev KW : Type := List (String × Arg)

/-- `kwargs |= unc_kwargs`: the registration-bound keys win. -/
def kwMerge (kwargs unc_kwargs : KW) : KW := unc_kwargs ++ kwargs

/-- The uniform calling convention of uncertainty entries: per-dataset
histograms, positional arguments, keyword arguments.  The registered
functions receive the tags through the positional arguments. -/
def F : Type := HDict → List Arg → KW → Hist

/-- An event-mask function over per-event boolean columns. -/
def MaskFn : Type := List Bool → List Bool

/-- The normalized trigger scale-factor configuration (the dataclass after
`__post_init__`).  `stat_func` models the class attribute `_stat_func`,
which is not a dataclass field. -/
structure TriggerSFConfig where
  triggers : Finset String
  ref_triggers : Finset String
  variables_ : List String
  datasets : Finset String
  tag : String
  ref_tag : String
  sf_name : String
  config_name : String
  main_variables : List String
  event_mask_func : Option MaskFn
  event_mask_uses : Finset String
  uncertainties : List F
  stat_func : Option F

/-- The `stat_unc` property. -/
def TriggerSFConfig.stat_unc (cfg : TriggerSFConfig) : Option F := cfg.stat_func

/-- The wrapper built by `TriggerSFConfig.uncertainty` around a registered
calculator (source lines 112–124): optionally merge the per-dataset
histograms into the data/mc shape, reduce all axes except the tags and the
bound variables, merge the bound keyword arguments, and call the function
with the tags prepended positionally. -/
def decorated_func (tag ref_tag : String) (variables_ : List String)
    (collect_mc_data : Bool) (unc_kwargs : KW) (func : F) : F :=
  fun histograms args kwargs =>
    let vrs := tag :: ref_tag :: variables_
    let histograms := if collect_mc_data then collect_hist histograms else histograms
    let histograms := histograms.map fun p => (p.1, reduce_hist_exclude p.2 vrs)
    func histograms (Arg.str tag :: Arg.str ref_tag :: args) (kwMerge kwargs unc_kwargs)

/-- `TriggerSFConfig.uncertainty` (source lines 101–130): append the
wrapped entry; when `stat` is set, expose the unwrapped function (with the
tags bound) as the statistical-uncertainty source. -/
def TriggerSFConfig.uncertainty (cfg : TriggerSFConfig) (func : F)
    (variables_ : Option (List String)) (collect_mc_data stat : Bool)
    (unc_kwargs : KW) : TriggerSFConfig :=
  let vrs := variables_.getD cfg.main_variables
  { cfg with
    uncertainties := cfg.uncertainties
      ++ [decorated_func cfg.tag cfg.ref_tag vrs collect_mc_data unc_kwargs func],
    stat_func := if stat
      then some fun hs args kw =>
        func hs (Arg.str cfg.tag :: Arg.str cfg.ref_tag :: args) kw
      else cfg.stat_func }

/-- `TriggerSFConfig.event_mask` (source lines 82–99).  With `uses` left at
its default `None`, line 97 evaluates `set | None`, which raises a
`TypeError`; this is modelled by the error branch. -/
def TriggerSFConfig.event_mask (cfg : TriggerSFConfig) (func : MaskFn)
    (uses : Option (Finset String)) : Except String TriggerSFConfig :=
  match uses with
  | none => Except.error "TypeError: unsupported operand type(s) for |: set and NoneType"
  | some u => Except.ok { cfg with
      event_mask_func := some func,
      event_mask_uses := cfg.event_mask_uses ∪ u }

/-- A scalar string or a collection, as accepted for `triggers`,
`ref_triggers` (source lines 53–63). -/
inductive StrOrColl where
  | scalar (s : String)
  | coll (l : List String)

/-- The set-coercion of `__post_init__`: a scalar becomes a singleton set,
a collection becomes its element set. -/
def StrOrColl.toFinset : StrOrColl → Finset String
  | .scalar s => {s}
  | .coll l => l.toFinset

/-- The constructor arguments of `TriggerSFConfig` before
`__post_init__` normalization. -/
structure RawConfig where
  triggers : StrOrColl
  ref_triggers : StrOrColl
  variables_ : List String
  datasets : List String
  tag : String
  ref_tag : String
  sf_name : String
  config_name : Option String
  main_variables : Option (List String)
  event_mask_func : Option MaskFn
  event_mask_uses : Finset String
  uncertainties : List F

/-- Python's `str.lower()`, over the underlying character list
(`String.toLower` itself is defined by well-founded recursion and does not
reduce in the kernel). -/
def lowerStr (s : String) : String := ⟨s.data.map Char.toLower⟩

/-- Stable insertion before the first element with a key not smaller
(Python's `sorted` is stable). -/
def insertStable (key : String → Nat) (x : String) : List String → List String
  | [] => [x]
  | y :: ys => if key x ≤ key y then x :: y :: ys else y :: insertStable key x ys

/-- Python's `sorted(l, key=key)`: a stable sort by key. -/
def pySorted (key : String → Nat) : List String → List String
  | [] => []
  | x :: xs => insertStable key x (pySorted key xs)

/-- `__post_init__` (source lines 51–77): coerce the trigger and dataset
inputs to sets, default `config_name`, default and re-sort
`main_variables` by position in `variables`, and re-register every
uncertainty entry through `uncertainty` with default arguments.
When a main variable is missing from `variables` the source raises a
`ValueError` from `list.index`; `List.indexOf` is total, so the values on
such inputs are junk and no theorem relies on them. -/
def postInit (raw : RawConfig) : TriggerSFConfig :=
  let cfg0 : TriggerSFConfig :=
    { triggers := raw.triggers.toFinset,
      ref_triggers := raw.ref_triggers.toFinset,
      variables_ := raw.variables_,
      datasets := raw.datasets.toFinset,
      tag := raw.tag,
      ref_tag := raw.ref_tag,
      sf_name := raw.sf_name,
      config_name := raw.config_name.getD
        ("hlt_" ++ lowerStr raw.tag ++ "_ref_" ++ lowerStr raw.ref_tag),
      main_variables := pySorted (fun v => raw.variables_.indexOf v)
        (raw.main_variables.getD raw.variables_),
      event_mask_func := raw.event_mask_func,
      event_mask_uses := raw.event_mask_uses,
      uncertainties := [],
      stat_func := none }
  raw.uncertainties.foldl (fun c unc => c.uncertainty unc none true false []) cfg0

/-- The current field values of a configuration, as constructor
arguments (what `dataclasses.replace` passes with no changes;
`_stat_func` is not a field and is not carried over). -/
def TriggerSFConfig.toRaw (cfg : TriggerSFConfig) : RawConfig :=
  { triggers := .coll (cfg.triggers.sort (· ≤ ·)),
    ref_triggers := .coll (cfg.ref_triggers.sort (· ≤ ·)),
    variables_ := cfg.variables_,
    datasets := cfg.datasets.sort (· ≤ ·),
    tag := cfg.tag,
    ref_tag := cfg.ref_tag,
    sf_name := cfg.sf_name,
    config_name := some cfg.config_name,
    main_variables := some cfg.main_variables,
    event_mask_func := cfg.event_mask_func,
    event_mask_uses := cfg.event_mask_uses,
    uncertainties := cfg.uncertainties }

/-- `copy()` = `dataclasses.replace(self)` with no changes: rebuild from
the current field values, re-running `__post_init__` (source lines 79–80). -/
def TriggerSFConfig.copy (cfg : TriggerSFConfig) : TriggerSFConfig :=
  postInit cfg.toRaw

/-- A sequence of registrations appends wrappers in registration order;
the bound tags and default variables come from the (unchanged)
configuration. -/
theorem foldl_uncertainty_uncs
    (regs : List (F × Option (List String) × Bool × Bool × KW)) :
    ∀ c : TriggerSFConfig,
      (regs.foldl (fun c r => c.uncertainty r.1 r.2.1 r.2.2.1 r.2.2.2.1 r.2.2.2.2)
          c).uncertainties
        = c.uncertainties ++ regs.map fun r =>
            decorated_func c.tag c.ref_tag (r.2.1.getD c.main_variables)
              r.2.2.1 r.2.2.2.2 r.1 := by
  induction regs with
  | nil => intro c; simp
  | cons r rs ih =>
      intro c
      rw [List.foldl_cons, ih]
      simp [TriggerSFConfig.uncertainty]

/-- The re-registration loop of `__post_init__` (default arguments):
wrappers in order; `stat_func` and `main_variables` are untouched. -/
theorem foldl_default_unc (l : List F) :
    ∀ c : TriggerSFConfig,
      ((l.foldl (fun c u => c.uncertainty u none true false []) c).uncertainties
        = c.uncertainties ++ l.map (decorated_func c.tag c.ref_tag c.main_variables true []))
      ∧ ((l.foldl (fun c u => c.uncertainty u none true false []) c).stat_func
        = c.stat_func)
      ∧ ((l.foldl (fun c u => c.uncertainty u none true false []) c).main_variables
        = c.main_variables) := by
  induction l with
  | nil => intro c; exact ⟨by simp, rfl, rfl⟩
  | cons u us ih =>
      intro c
      refine ⟨?_, ?_, ?_⟩
      · rw [List.foldl_cons, (ih _).1]
        simp [TriggerSFConfig.uncertainty]
      · rw [List.foldl_cons, (ih _).2.1]
        rfl
      · rw [List.foldl_cons, (ih _).2.2]
        rfl

/-- C3: registering an uncertainty function appends — in registration
order — a wrapper that (when `collect_mc_data`) merges the per-dataset
histograms into the `{"data","mc"}` shape, reduces all axes except
`{tag, ref_tag, *variables}`, merges the keyword arguments bound at
registration, and calls `func(histograms, tag, ref_tag, *args, **kwargs)`. -/
theorem uncertainty_registration (cfg : TriggerSFConfig) (func : F)
    (variables_ : Option (List String)) (collect_mc_data stat : Bool)
    (unc_kwargs : KW) :
    ((cfg.uncertainty func variables_ collect_mc_data stat unc_kwargs).uncertainties
      = cfg.uncertainties
        ++ [decorated_func cfg.tag cfg.ref_tag (variables_.getD cfg.main_variables)
              collect_mc_data unc_kwargs func])
    ∧ (∀ (histograms : HDict) (args : List Arg) (kwargs : KW),
        decorated_func cfg.tag cfg.ref_tag (variables_.getD cfg.main_variables)
            collect_mc_data unc_kwargs func histograms args kwargs
          = func ((if collect_mc_data then collect_hist histograms else histograms).map
                fun p => (p.1, reduce_hist_exclude p.2
                  (cfg.tag :: cfg.ref_tag :: variables_.getD cfg.main_variables)))
              (Arg.str cfg.tag :: Arg.str cfg.ref_tag :: args)
              (kwMerge kwargs unc_kwargs))
    ∧ (∀ regs : List (F × Option (List String) × Bool × Bool × KW),
        (regs.foldl (fun c r => c.uncertainty r.1 r.2.1 r.2.2.1 r.2.2.2.1 r.2.2.2.2)
            cfg).uncertainties
          = cfg.uncertainties ++ regs.map fun r =>
              decorated_func cfg.tag cfg.ref_tag (r.2.1.getD cfg.main_variables)
                r.2.2.1 r.2.2.2.2 r.1) :=
  ⟨rfl, fun _ _ _ => rfl, fun regs => foldl_uncertainty_uncs regs cfg⟩

/-- C10: `copy()` re-runs `__post_init__`, which passes every stored
(already wrapped) entry through `uncertainty` again with default
arguments: the clone's entries carry a second collect/reduce layer around
the stored entries, and the clone's `stat_unc` is `None` even when the
original's was set. -/
theorem copy_rewraps_and_drops_stat (cfg : TriggerSFConfig) :
    ((cfg.copy).uncertainties
      = cfg.uncertainties.map
          (decorated_func cfg.tag cfg.ref_tag (cfg.copy).main_variables true []))
    ∧ (cfg.copy).stat_unc = none
    ∧ (∀ (e : F) (histograms : HDict) (args : List Arg) (kwargs : KW),
        decorated_func cfg.tag cfg.ref_tag (cfg.copy).main_variables true [] e
            histograms args kwargs
          = e ((collect_hist histograms).map fun p =>
                (p.1, reduce_hist_exclude p.2
                  (cfg.tag :: cfg.ref_tag :: (cfg.copy).main_variables)))
              (Arg.str cfg.tag :: Arg.str cfg.ref_tag :: args)
              (kwMerge kwargs [])) := by
  have h := foldl_default_unc cfg.uncertainties
  have hmain : (cfg.copy).main_variables
      = pySorted (fun v => cfg.variables_.indexOf v) cfg.main_variables := by
    simp only [TriggerSFConfig.copy, postInit, TriggerSFConfig.toRaw]
    rw [(h _).2.2]
    simp
  refine ⟨?_, ?_, fun _ _ _ _ => rfl⟩
  · rw [hmain]
    simp only [TriggerSFConfig.copy, postInit, TriggerSFConfig.toRaw]
    rw [(h _).1]
    simp
  · simp only [TriggerSFConfig.stat_unc, TriggerSFConfig.copy, postInit,
      TriggerSFConfig.toRaw]
    rw [(h _).2.1]

theorem mem_insertStable {key : String → Nat} {x a : String} {l : List String} :
    a ∈ insertStable key x l ↔ a = x ∨ a ∈ l := by
  induction l with
  | nil => simp [insertStable]
  | cons y ys ih =>
      unfold insertStable
      split
      · simp [List.mem_cons]
      · simp only [List.mem_cons, ih]
        tauto

theorem insertStable_pairwise {key : String → Nat} {x : String} {l : List String}
    (hl : l.Pairwise fun a b => key a ≤ key b) :
    (insertStable key x l).Pairwise fun a b => key a ≤ key b := by
  induction l with
  | nil => simp [insertStable]
  | cons y ys ih =>
      rcases List.pairwise_cons.mp hl with ⟨hy, hys⟩
      unfold insertStable
      split
      · rename_i hxy
        refine List.pairwise_cons.mpr ⟨?_, hl⟩
        intro b hb
        rcases List.mem_cons.mp hb with rfl | hbys
        · exact hxy
        · exact le_trans hxy (hy b hbys)
      · rename_i hxy
        have hyx : key y ≤ key x := le_of_not_le hxy
        refine List.pairwise_cons.mpr ⟨?_, ih hys⟩
        intro b hb
        rcases mem_insertStable.mp hb with rfl | hbys
        · exact hyx
        · exact hy b hbys

theorem pySorted_pairwise (key : String → Nat) (l : List String) :
    (pySorted key l).Pairwise fun a b => key a ≤ key b := by
  induction l with
  | nil => exact List.Pairwise.nil
  | cons x xs ih => exact insertStable_pairwise ih

theorem pySorted_eq_self {key : String → Nat} {l : List String}
    (hl : l.Pairwise fun a b => key a ≤ key b) : pySorted key l = l := by
  induction l with
  | nil => rfl
  | cons x xs ih =>
      rcases List.pairwise_cons.mp hl with ⟨hx, hxs⟩
      unfold pySorted
      rw [ih hxs]
      cases xs with
      | nil => rfl
      | cons y ys =>
          unfold insertStable
          rw [if_pos (hx y (List.mem_cons_self _ _))]

theorem nodup_indexOf_pairwise {l : List String} (h : l.Nodup) :
    l.Pairwise fun a b => l.indexOf a ≤ l.indexOf b := by
  induction l with
  | nil => exact List.Pairwise.nil
  | cons x xs ih =>
      rcases List.nodup_cons.mp h with ⟨hx, hxs⟩
      refine List.pairwise_cons.mpr ⟨?_, ?_⟩
      · intro b _
        simp [List.indexOf_cons_self]
      · refine (ih hxs).imp_of_mem ?_
        intro a b ha hb hab
        have hax : x ≠ a := fun hc => hx (hc ▸ ha)
        have hbx : x ≠ b := fun hc => hx (hc ▸ hb)
        rw [List.indexOf_cons_ne _ hax, List.indexOf_cons_ne _ hbx]
        exact Nat.succ_le_succ hab

/-- The re-registration loop of `__post_init__` only touches
`uncertainties` (and, with default arguments, keeps `stat_func`). -/
theorem foldl_default_eq (l : List F) :
    ∀ c : TriggerSFConfig,
      l.foldl (fun c u => c.uncertainty u none true false []) c
        = { c with uncertainties := c.uncertainties
              ++ l.map (decorated_func c.tag c.ref_tag c.main_variables true []) } := by
  induction l with
  | nil => intro c; simp
  | cons u us ih =>
      intro c
      rw [List.foldl_cons, ih]
      simp [TriggerSFConfig.uncertainty]

/-- C6 (amended): after `__post_init__` the trigger and dataset inputs are
coerced to sets (a scalar string becomes a singleton), `config_name`
defaults to `"hlt_" + tag.lower() + "_ref_" + ref_tag.lower()`, and
`main_variables` (defaulting to `variables`) is stably re-sorted by
position in `variables`; when `variables` has no duplicate names the
defaulted `main_variables` equals `variables` (with duplicates, the stable
sort groups them by first occurrence).  The same holds after `copy`. -/
theorem postInit_normalization (raw : RawConfig) :
    ((postInit raw).triggers = raw.triggers.toFinset
      ∧ (postInit raw).ref_triggers = raw.ref_triggers.toFinset
      ∧ (postInit raw).datasets = raw.datasets.toFinset)
    ∧ (∀ s, raw.triggers = StrOrColl.scalar s → (postInit raw).triggers = {s})
    ∧ (raw.config_name = none →
        (postInit raw).config_name
          = "hlt_" ++ lowerStr raw.tag ++ "_ref_" ++ lowerStr raw.ref_tag)
    ∧ (raw.main_variables = none → raw.variables_.Nodup →
        (postInit raw).main_variables = raw.variables_)
    ∧ (postInit raw).main_variables.Pairwise
        (fun a b => raw.variables_.indexOf a ≤ raw.variables_.indexOf b)
    ∧ (∀ cfg : TriggerSFConfig,
        (cfg.copy).triggers = cfg.triggers
        ∧ (cfg.copy).main_variables.Pairwise
            (fun a b => cfg.variables_.indexOf a ≤ cfg.variables_.indexOf b)) := by
  have hfold : ∀ raw' : RawConfig, postInit raw'
      = { triggers := raw'.triggers.toFinset,
          ref_triggers := raw'.ref_triggers.toFinset,
          variables_ := raw'.variables_,
          datasets := raw'.datasets.toFinset,
          tag := raw'.tag,
          ref_tag := raw'.ref_tag,
          sf_name := raw'.sf_name,
          config_name := raw'.config_name.getD
            ("hlt_" ++ lowerStr raw'.tag ++ "_ref_" ++ lowerStr raw'.ref_tag),
          main_variables := pySorted (fun v => raw'.variables_.indexOf v)
            (raw'.main_variables.getD raw'.variables_),
          event_mask_func := raw'.event_mask_func,
          event_mask_uses := raw'.event_mask_uses,
          uncertainties := raw'.uncertainties.map
            (decorated_func raw'.tag raw'.ref_tag
              (pySorted (fun v => raw'.variables_.indexOf v)
                (raw'.main_variables.getD raw'.variables_)) true []),
          stat_func := none } := by
    intro raw'
    unfold postInit
    rw [foldl_default_eq]
    simp
  refine ⟨⟨?_, ?_, ?_⟩, ?_, ?_, ?_, ?_, ?_⟩
  · rw [hfold raw]
  · rw [hfold raw]
  · rw [hfold raw]
  · intro s hs
    rw [hfold raw, hs]
    rfl
  · intro hcn
    rw [hfold raw, hcn]
    rfl
  · intro hmv hnd
    rw [hfold raw, hmv]
    exact pySorted_eq_self (nodup_indexOf_pairwise hnd)
  · rw [hfold raw]
    exact pySorted_pairwise _ _
  · intro cfg
    constructor
    · show (postInit cfg.toRaw).triggers = cfg.triggers
      rw [hfold cfg.toRaw]
      show (StrOrColl.coll (cfg.triggers.sort (· ≤ ·))).toFinset = cfg.triggers
      show (cfg.triggers.sort (· ≤ ·)).toFinset = cfg.triggers
      exact Finset.sort_toFinset _ _
    · show (postInit cfg.toRaw).main_variables.Pairwise _
      rw [hfold cfg.toRaw]
      exact pySorted_pairwise _ _

/-- C6 counterexample: with the duplicated variable list `["a","b","a"]`
and `main_variables` left unset, the stable re-sort of `__post_init__` by
first-occurrence position groups the duplicates: the resulting
`main_variables` is `["a","a","b"]`, not `variables`. -/
theorem postInit_main_variables_counterexample :
    (postInit { triggers := .scalar "A", ref_triggers := .scalar "B",
                variables_ := ["a", "b", "a"], datasets := ["d"],
                tag := "trig", ref_tag := "ref", sf_name := "trig_sf",
                config_name := none, main_variables := none,
                event_mask_func := none, event_mask_uses := ∅,
                uncertainties := [] }).main_variables
      = ["a", "a", "b"]
    ∧ (["a", "a", "b"] : List String) ≠ ["a", "b", "a"] :=
  ⟨rfl, by decide⟩

/-- A concrete constructor input for witnesses. -/
def exampleRaw : RawConfig :=
  { triggers := .scalar "A", ref_triggers := .scalar "B",
    variables_ := ["x", "y"], datasets := ["d1", "d2"],
    tag := "trig", ref_tag := "ref", sf_name := "trig_sf",
    config_name := none, main_variables := none,
    event_mask_func := none, event_mask_uses := ∅,
    uncertainties := [] }

/-- Witness for `postInit_normalization` at a concrete input. -/
theorem postInit_normalization_witness :
    (postInit exampleRaw).triggers = {"A"}
    ∧ (postInit exampleRaw).config_name = "hlt_trig_ref_ref"
    ∧ (postInit exampleRaw).main_variables = ["x", "y"] :=
  ⟨(postInit_normalization exampleRaw).2.1 "A" rfl,
   by rw [(postInit_normalization exampleRaw).2.2.1 rfl]; decide,
   (postInit_normalization exampleRaw).2.2.2.1 rfl (by decide)⟩

/-- An example normalized configuration used to evaluate `event_mask`. -/
def exampleCfg : TriggerSFConfig := postInit exampleRaw

/-- C9: with `uses` left at its default `None`, `event_mask` raises a
`TypeError` (line 97 computes `set | None`) instead of registering the
function; with an explicit `uses` set it does register the function and
merges the declared columns into `event_mask_uses`. -/
theorem event_mask_default_uses_raises :
    exampleCfg.event_mask (fun l => l) none
      = Except.error "TypeError: unsupported operand type(s) for |: set and NoneType"
    ∧ exampleCfg.event_mask (fun l => l) (some {"Muon.pt"})
      = Except.ok { exampleCfg with
          event_mask_func := some (fun l => l),
          event_mask_uses := exampleCfg.event_mask_uses ∪ {"Muon.pt"} } :=
  ⟨rfl, rfl⟩

/-! ## The Koopman confidence interval (source module `Koopman_test`, not
under `src/`; modelled from the spec)

The spec describes `koopman_confint` as "an exact/Koopman-style interval
construction" returning asymmetric lower/upper bounds on the ratio of two
binomial proportions (data efficiency over MC efficiency) at a fixed
confidence level.  The Koopman interval inverts the score test: the
statistic `koopmanU` compares the observed counts with the constrained
maximum-likelihood proportions at a hypothesised ratio θ, and the interval
is the set of θ whose statistic stays below the χ²₁ critical value (1 at
the 68.27% level used for one-sigma bands). -/

/-- The Koopman quadratic's linear coefficient at ratio `θ`. -/
noncomputable def koopB (x1 n1 x2 n2 θ : ℝ) : ℝ := θ * (n1 + x2) + x1 + n2

/-- The discriminant of the Koopman quadratic
`(n1+n2)·p² − koopB·p + θ(x1+x2)`. -/
noncomputable def koopD (x1 n1 x2 n2 θ : ℝ) : ℝ :=
  koopB x1 n1 x2 n2 θ ^ 2 - 4 * (n1 + n2) * (θ * (x1 + x2))

/-- Modelled from the spec: the constrained MLE of the first proportion at
ratio `θ` — the smaller root of the Koopman quadratic. -/
noncomputable def p1t (x1 n1 x2 n2 θ : ℝ) : ℝ :=
  (koopB x1 n1 x2 n2 θ - Real.sqrt (koopD x1 n1 x2 n2 θ)) / (2 * (n1 + n2))

/-- The constrained MLE of the second proportion: `p1t / θ`. -/
noncomputable def p2t (x1 n1 x2 n2 θ : ℝ) : ℝ := p1t x1 n1 x2 n2 θ / θ

/-- Modelled from the spec: the Koopman score statistic at ratio `θ` for
observed counts `x1/n1` (data) and `x2/n2` (MC). -/
noncomputable def koopmanU (x1 n1 x2 n2 θ : ℝ) : ℝ :=
  (x1 - n1 * p1t x1 n1 x2 n2 θ) ^ 2
    / (n1 * p1t x1 n1 x2 n2 θ * (1 - p1t x1 n1 x2 n2 θ))
  + (x2 - n2 * p2t x1 n1 x2 n2 θ) ^ 2
    / (n2 * p2t x1 n1 x2 n2 θ * (1 - p2t x1 n1 x2 n2 θ))

/-- The acceptance region of the Koopman score test at the one-sigma χ²₁
critical value `1`. -/
def koopmanAccept (x1 n1 x2 n2 : ℝ) : Set ℝ :=
  {θ | 0 ≤ θ ∧ koopmanU x1 n1 x2 n2 θ ≤ 1}

/-- Modelled from the spec: `koopman_confint` — the default `error_func` of
`calc_stat` — returns the lower and upper bound of the score-inversion
interval for the ratio of the data and MC proportions, given the four
counts `(data_trigger_and_ref, data_ref, mc_trigger_and_ref, mc_ref)`. -/
noncomputable def koopman_confint (d_tr d_ref m_tr m_ref : ℚ) : ℝ × ℝ :=
  (sInf (koopmanAccept d_tr d_ref m_tr m_ref),
   sSup (koopmanAccept d_tr d_ref m_tr m_ref))

/-- At the observed ratio, the constrained MLE of the first proportion is
the observed proportion. -/
theorem p1t_mle (x1 n1 x2 n2 : ℝ) (hx1 : 0 ≤ x1) (hx1n : x1 ≤ n1)
    (hx2 : 0 < x2) (hx2n : x2 ≤ n2) (hn1 : 0 < n1) :
    p1t x1 n1 x2 n2 ((x1 / n1) / (x2 / n2)) = x1 / n1 := by
  have hn2 : 0 < n2 := lt_of_lt_of_le hx2 hx2n
  set θ := (x1 / n1) / (x2 / n2) with hθdef
  have hB2A : 0 ≤ koopB x1 n1 x2 n2 θ - 2 * (n1 + n2) * (x1 / n1) := by
    have hkey : n1 * x2 * (koopB x1 n1 x2 n2 θ - 2 * (n1 + n2) * (x1 / n1))
        = (n2 - x2) * (x1 * n1 + x2 * (n1 - x1)) + x2 ^ 2 * (n1 - x1) := by
      unfold koopB
      rw [hθdef]
      field_simp
      ring
    have hpos : 0 ≤ (n2 - x2) * (x1 * n1 + x2 * (n1 - x1)) + x2 ^ 2 * (n1 - x1) := by
      have h1 : 0 ≤ n2 - x2 := sub_nonneg.mpr hx2n
      have h2 : 0 ≤ x1 * n1 + x2 * (n1 - x1) :=
        add_nonneg (mul_nonneg hx1 hn1.le)
          (mul_nonneg hx2.le (sub_nonneg.mpr hx1n))
      have h3 : 0 ≤ n1 - x1 := sub_nonneg.mpr hx1n
      exact add_nonneg (mul_nonneg h1 h2) (mul_nonneg (sq_nonneg _) h3)
    nlinarith [mul_pos hn1 hx2]
  have hDsq : koopD x1 n1 x2 n2 θ
      = (koopB x1 n1 x2 n2 θ - 2 * (n1 + n2) * (x1 / n1)) ^ 2 := by
    unfold koopD koopB
    rw [hθdef]
    field_simp
    ring
  have hsqrt : Real.sqrt (koopD x1 n1 x2 n2 θ)
      = koopB x1 n1 x2 n2 θ - 2 * (n1 + n2) * (x1 / n1) := by
    rw [hDsq]
    exact Real.sqrt_sq hB2A
  unfold p1t
  rw [hsqrt]
  have hA : (2 * (n1 + n2)) ≠ 0 := by positivity
  field_simp
  ring

/-- The Koopman statistic vanishes at the observed ratio. -/
theorem koopmanU_mle (x1 n1 x2 n2 : ℝ) (hx1 : 0 ≤ x1) (hx1n : x1 ≤ n1)
    (hx2 : 0 < x2) (hx2n : x2 ≤ n2) (hn1 : 0 < n1) :
    koopmanU x1 n1 x2 n2 ((x1 / n1) / (x2 / n2)) = 0 := by
  have hn2 : 0 < n2 := lt_of_lt_of_le hx2 hx2n
  have hp1 := p1t_mle x1 n1 x2 n2 hx1 hx1n hx2 hx2n hn1
  unfold koopmanU
  rw [hp1]
  have hT1 : (x1 - n1 * (x1 / n1)) = 0 := by
    field_simp
  rcases eq_or_lt_of_le hx1 with hx10 | hx1pos
  · -- x1 = 0: the observed ratio is 0 and the second term is junk 0/0
    have hx1z : x1 = 0 := hx10.symm
    have hθ0 : (x1 / n1) / (x2 / n2) = 0 := by
      rw [hx1z]
      simp
    unfold p2t
    rw [hp1, hθ0, hT1]
    rw [hx1z]
    simp
  · -- x1 > 0: the second MLE is the observed MC proportion
    have hx1ne : x1 ≠ 0 := ne_of_gt hx1pos
    have hn1ne : n1 ≠ 0 := ne_of_gt hn1
    have hx2ne : x2 ≠ 0 := ne_of_gt hx2
    have hn2ne : n2 ≠ 0 := ne_of_gt hn2
    have hp2 : (x1 / n1) / ((x1 / n1) / (x2 / n2)) = x2 / n2 := by
      rw [div_div_div_eq]
      rw [div_eq_div_iff (by positivity) (by positivity)]
      field_simp
      ring
    unfold p2t
    rw [hp1, hp2, hT1]
    have hT2 : (x2 - n2 * (x2 / n2)) = 0 := by
      field_simp
    rw [hT2]
    simp

/-- The smaller root `(B - √D)/(2A)` of a positive quadratic with
positive coefficients: rationalized form, positivity, and the `2C/B`
upper bound. -/
theorem smaller_root_bounds (A B C D : ℝ) (hA : 0 < A) (hB : 0 < B) (hC : 0 < C)
    (hD : D = B ^ 2 - 4 * A * C) (hDnn : 0 ≤ D) :
    (B - Real.sqrt D) / (2 * A) = 2 * C / (B + Real.sqrt D)
    ∧ 0 < (B - Real.sqrt D) / (2 * A)
    ∧ (B - Real.sqrt D) / (2 * A) ≤ 2 * C / B := by
  have hsq : Real.sqrt D ^ 2 = D := Real.sq_sqrt hDnn
  have hsnn : 0 ≤ Real.sqrt D := Real.sqrt_nonneg D
  have hBS : 0 < B + Real.sqrt D := by positivity
  have heq : (B - Real.sqrt D) / (2 * A) = 2 * C / (B + Real.sqrt D) := by
    rw [div_eq_div_iff (by positivity : (0:ℝ) < 2 * A).ne' hBS.ne']
    have hfact : (B - Real.sqrt D) * (B + Real.sqrt D) = B ^ 2 - D := by
      have h2 : (B - Real.sqrt D) * (B + Real.sqrt D) = B ^ 2 - Real.sqrt D ^ 2 := by
        ring
      rw [h2, hsq]
    rw [hfact, hD]
    ring
  refine ⟨heq, ?_, ?_⟩
  · rw [heq]
    positivity
  · rw [heq]
    gcongr
    linarith

/-- When `1` is at or beyond the smaller root (`Q(1) = A - B + C ≤ 0`),
the smaller root is at most `1`. -/
theorem smaller_root_le_one (A B C D : ℝ) (hA : 0 < A)
    (hD : D = B ^ 2 - 4 * A * C) (hQ1 : A - B + C ≤ 0) :
    (B - Real.sqrt D) / (2 * A) ≤ 1 := by
  rw [div_le_one (by positivity)]
  by_cases hB2A : B - 2 * A ≤ 0
  · nlinarith [Real.sqrt_nonneg D]
  · push_neg at hB2A
    have h1 : (B - 2 * A) ^ 2 ≤ D := by nlinarith
    have h2 : B - 2 * A ≤ Real.sqrt D := by
      calc B - 2 * A = Real.sqrt ((B - 2 * A) ^ 2) := (Real.sqrt_sq hB2A.le).symm
        _ ≤ Real.sqrt D := Real.sqrt_le_sqrt h1
    linarith

set_option maxHeartbeats 1600000 in
/-- Beyond an explicit bound on the ratio, the Koopman statistic exceeds
the critical value `1`: the acceptance region is bounded above. -/
theorem koopmanU_large (x1 n1 x2 n2 : ℝ) (hx1 : 0 ≤ x1) (hx1n : x1 ≤ n1)
    (hx2 : 0 < x2) (hx2n : x2 ≤ n2) (hn1 : 0 < n1) (θ : ℝ)
    (hθ : 1 + 2 * n2 * (2 * (x1 + x2) / (n1 + x2)) / x2
        + 4 * n2 * (2 * (x1 + x2) / (n1 + x2)) / x2 ^ 2 < θ) :
    1 < koopmanU x1 n1 x2 n2 θ := by
  have hn2 : 0 < n2 := lt_of_lt_of_le hx2 hx2n
  have hn1x2 : 0 < n1 + x2 := by positivity
  have hx1x2 : 0 < x1 + x2 := by positivity
  have hKpos : 0 < 2 * (x1 + x2) / (n1 + x2) := by positivity
  have ht1 : (0 : ℝ) ≤ 2 * n2 * (2 * (x1 + x2) / (n1 + x2)) / x2 := by positivity
  have ht2 : (0 : ℝ) ≤ 4 * n2 * (2 * (x1 + x2) / (n1 + x2)) / x2 ^ 2 := by positivity
  have hθ1 : 1 < θ := by linarith
  have hθpos : 0 < θ := lt_trans one_pos hθ1
  have hApos : 0 < n1 + n2 := by positivity
  have hBpos : 0 < koopB x1 n1 x2 n2 θ := by
    unfold koopB
    positivity
  have hCpos : 0 < θ * (x1 + x2) := by positivity
  have hDval : koopD x1 n1 x2 n2 θ
      = koopB x1 n1 x2 n2 θ ^ 2 - 4 * (n1 + n2) * (θ * (x1 + x2)) := rfl
  have hDnn : 0 ≤ koopD x1 n1 x2 n2 θ := by
    rw [hDval]
    unfold koopB
    nlinarith [sq_nonneg (θ * (n1 + x2) - (x1 + n2)),
      mul_nonneg (mul_nonneg hθpos.le (sub_nonneg.mpr hx1n)) (sub_nonneg.mpr hx2n)]
  obtain ⟨hr_eq, hr_pos, hr_le⟩ := smaller_root_bounds (n1 + n2) (koopB x1 n1 x2 n2 θ)
    (θ * (x1 + x2)) (koopD x1 n1 x2 n2 θ) hApos hBpos hCpos hDval hDnn
  have hp1eq : p1t x1 n1 x2 n2 θ
      = (koopB x1 n1 x2 n2 θ - Real.sqrt (koopD x1 n1 x2 n2 θ)) / (2 * (n1 + n2)) := rfl
  have hp1pos : 0 < p1t x1 n1 x2 n2 θ := by rw [hp1eq]; exact hr_pos
  have hp1le1 : p1t x1 n1 x2 n2 θ ≤ 1 := by
    rw [hp1eq]
    apply smaller_root_le_one (n1 + n2) (koopB x1 n1 x2 n2 θ) (θ * (x1 + x2))
      (koopD x1 n1 x2 n2 θ) hApos hDval
    have hfac : (n1 + n2) - koopB x1 n1 x2 n2 θ + θ * (x1 + x2)
        = (n1 - x1) * (1 - θ) := by
      unfold koopB
      ring
    rw [hfac]
    exact mul_nonpos_of_nonneg_of_nonpos (sub_nonneg.mpr hx1n) (by linarith)
  -- bound on the second constrained proportion
  have hBge : θ * (n1 + x2) ≤ koopB x1 n1 x2 n2 θ := by
    unfold koopB
    nlinarith
  have hp2eq : p2t x1 n1 x2 n2 θ = p1t x1 n1 x2 n2 θ / θ := rfl
  have hp2pos : 0 < p2t x1 n1 x2 n2 θ := by
    rw [hp2eq]
    exact div_pos hp1pos hθpos
  have hp2K : p2t x1 n1 x2 n2 θ ≤ 2 * (x1 + x2) / (n1 + x2) / θ := by
    rw [hp2eq]
    have step1 : p1t x1 n1 x2 n2 θ / θ ≤ (2 * (θ * (x1 + x2)) / koopB x1 n1 x2 n2 θ) / θ := by
      gcongr
      rw [hp1eq]
      exact hr_le
    have step2 : (2 * (θ * (x1 + x2)) / koopB x1 n1 x2 n2 θ) / θ
        = 2 * (x1 + x2) / koopB x1 n1 x2 n2 θ := by
      field_simp
      ring
    have step3 : 2 * (x1 + x2) / koopB x1 n1 x2 n2 θ
        ≤ 2 * (x1 + x2) / (θ * (n1 + x2)) := by
      gcongr
    have step4 : 2 * (x1 + x2) / (θ * (n1 + x2))
        = 2 * (x1 + x2) / (n1 + x2) / θ := by
      field_simp
      ring
    calc p1t x1 n1 x2 n2 θ / θ
        ≤ (2 * (θ * (x1 + x2)) / koopB x1 n1 x2 n2 θ) / θ := step1
      _ = 2 * (x1 + x2) / koopB x1 n1 x2 n2 θ := step2
      _ ≤ 2 * (x1 + x2) / (θ * (n1 + x2)) := step3
      _ = 2 * (x1 + x2) / (n1 + x2) / θ := step4
  have hKθ : 2 * (x1 + x2) / (n1 + x2) / θ < x2 / (2 * n2) := by
    rw [div_lt_div_iff hθpos (by positivity)]
    have h2n : 2 * n2 * (2 * (x1 + x2) / (n1 + x2)) / x2 < θ := by linarith
    rw [div_lt_iff hx2] at h2n
    linarith
  have hp2half : n2 * p2t x1 n1 x2 n2 θ ≤ x2 / 2 := by
    have : p2t x1 n1 x2 n2 θ < x2 / (2 * n2) := lt_of_le_of_lt hp2K hKθ
    rw [lt_div_iff (by positivity)] at this
    linarith
  have hp2le : p2t x1 n1 x2 n2 θ ≤ 1 / 2 := by
    nlinarith [hp2half, hx2n, hn2]
  -- the first term is nonnegative
  have hT1 : 0 ≤ (x1 - n1 * p1t x1 n1 x2 n2 θ) ^ 2
      / (n1 * p1t x1 n1 x2 n2 θ * (1 - p1t x1 n1 x2 n2 θ)) := by
    apply div_nonneg (sq_nonneg _)
    apply mul_nonneg (mul_nonneg hn1.le hp1pos.le)
    linarith
  -- the second term exceeds 1
  have hnum : x2 / 2 ≤ x2 - n2 * p2t x1 n1 x2 n2 θ := by linarith
  have hden : n2 * p2t x1 n1 x2 n2 θ * (1 - p2t x1 n1 x2 n2 θ)
      ≤ n2 * p2t x1 n1 x2 n2 θ :=
    mul_le_of_le_one_right (mul_pos hn2 hp2pos).le (by linarith)
  have hdenpos : 0 < n2 * p2t x1 n1 x2 n2 θ * (1 - p2t x1 n1 x2 n2 θ) := by
    apply mul_pos (mul_pos hn2 hp2pos)
    linarith
  have hT2a : (x2 / 2) ^ 2 / (n2 * p2t x1 n1 x2 n2 θ)
      ≤ (x2 - n2 * p2t x1 n1 x2 n2 θ) ^ 2
        / (n2 * p2t x1 n1 x2 n2 θ * (1 - p2t x1 n1 x2 n2 θ)) := by
    apply div_le_div (sq_nonneg _) _ hdenpos hden
    exact pow_le_pow_left (by positivity) hnum 2
  have hT2b : 1 < (x2 / 2) ^ 2 / (n2 * p2t x1 n1 x2 n2 θ) := by
    rw [lt_div_iff (mul_pos hn2 hp2pos)]
    have h4n : 4 * n2 * (2 * (x1 + x2) / (n1 + x2)) / x2 ^ 2 < θ := by linarith
    rw [div_lt_iff (by positivity)] at h4n
    have hchain : n2 * p2t x1 n1 x2 n2 θ ≤ n2 * (2 * (x1 + x2) / (n1 + x2) / θ) :=
      mul_le_mul_of_nonneg_left hp2K hn2.le
    have hlast : n2 * (2 * (x1 + x2) / (n1 + x2) / θ) < (x2 / 2) ^ 2 := by
      have hform : n2 * (2 * (x1 + x2) / (n1 + x2) / θ)
          = n2 * (2 * (x1 + x2) / (n1 + x2)) / θ := by
        ring
      rw [hform, div_lt_iff hθpos]
      nlinarith
    linarith
  unfold koopmanU
  linarith

/-- C1: for every four-count tuple `(d_tr, d_ref, m_tr, m_ref)` with
`0 ≤ d_tr ≤ d_ref`, `0 ≤ m_tr ≤ m_ref` and all denominators nonzero, the
interval returned by `koopman_confint` (the default `error_func` of
`calc_stat`) brackets the ratio of ratios `(d_tr/d_ref)/(m_tr/m_ref)`. -/
theorem koopman_confint_brackets (d_tr d_ref m_tr m_ref : ℚ)
    (h1 : 0 ≤ d_tr) (h2 : d_tr ≤ d_ref) (h3 : 0 ≤ m_tr) (h4 : m_tr ≤ m_ref)
    (h5 : d_ref ≠ 0) (h6 : m_ref ≠ 0) (h7 : m_tr ≠ 0) :
    (koopman_confint d_tr d_ref m_tr m_ref).1
        ≤ ((d_tr / d_ref / (m_tr / m_ref) : ℚ) : ℝ)
    ∧ ((d_tr / d_ref / (m_tr / m_ref) : ℚ) : ℝ)
        ≤ (koopman_confint d_tr d_ref m_tr m_ref).2 := by
  have hx1 : (0 : ℝ) ≤ (d_tr : ℝ) := by exact_mod_cast h1
  have hx1n : (d_tr : ℝ) ≤ (d_ref : ℝ) := by exact_mod_cast h2
  have hx2q : (0 : ℚ) < m_tr := lt_of_le_of_ne h3 (Ne.symm h7)
  have hx2 : (0 : ℝ) < (m_tr : ℝ) := by exact_mod_cast hx2q
  have hx2n : (m_tr : ℝ) ≤ (m_ref : ℝ) := by exact_mod_cast h4
  have hn1q : (0 : ℚ) < d_ref := lt_of_le_of_ne (le_trans h1 h2) (Ne.symm h5)
  have hn1 : (0 : ℝ) < (d_ref : ℝ) := by exact_mod_cast hn1q
  have hn2 : (0 : ℝ) < (m_ref : ℝ) := lt_of_lt_of_le hx2 hx2n
  have hcast : ((d_tr / d_ref / (m_tr / m_ref) : ℚ) : ℝ)
      = ((d_tr : ℝ) / (d_ref : ℝ)) / ((m_tr : ℝ) / (m_ref : ℝ)) := by
    push_cast
    rfl
  have hmem : ((d_tr : ℝ) / (d_ref : ℝ)) / ((m_tr : ℝ) / (m_ref : ℝ))
      ∈ koopmanAccept (d_tr : ℝ) (d_ref : ℝ) (m_tr : ℝ) (m_ref : ℝ) := by
    constructor
    · positivity
    · rw [koopmanU_mle (d_tr : ℝ) (d_ref : ℝ) (m_tr : ℝ) (m_ref : ℝ)
        hx1 hx1n hx2 hx2n hn1]
      norm_num
  have hbelow : BddBelow (koopmanAccept (d_tr : ℝ) (d_ref : ℝ) (m_tr : ℝ) (m_ref : ℝ)) :=
    ⟨0, fun θ hθ => hθ.1⟩
  have habove : BddAbove (koopmanAccept (d_tr : ℝ) (d_ref : ℝ) (m_tr : ℝ) (m_ref : ℝ)) := by
    refine ⟨1 + 2 * (m_ref : ℝ) * (2 * ((d_tr : ℝ) + (m_tr : ℝ)) / ((d_ref : ℝ) + (m_tr : ℝ)))
        / (m_tr : ℝ)
      + 4 * (m_ref : ℝ) * (2 * ((d_tr : ℝ) + (m_tr : ℝ)) / ((d_ref : ℝ) + (m_tr : ℝ)))
        / (m_tr : ℝ) ^ 2, ?_⟩
    intro θ hθmem
    by_contra hc
    push_neg at hc
    have hU := koopmanU_large (d_tr : ℝ) (d_ref : ℝ) (m_tr : ℝ) (m_ref : ℝ)
      hx1 hx1n hx2 hx2n hn1 θ hc
    exact absurd hθmem.2 (not_le.mpr hU)
  unfold koopman_confint
  rw [hcast]
  exact ⟨csInf_le hbelow hmem, le_csSup habove hmem⟩

/-- Witness for `koopman_confint_brackets` at the counts (3, 5, 2, 4). -/
theorem koopman_confint_brackets_witness :
    (koopman_confint 3 5 2 4).1 ≤ ((3 / 5 / (2 / 4) : ℚ) : ℝ)
    ∧ ((3 / 5 / (2 / 4) : ℚ) : ℝ) ≤ (koopman_confint 3 5 2 4).2 :=
  koopman_confint_brackets 3 5 2 4 (by decide) (by decide) (by decide) (by decide)
    (by decide) (by decide) (by decide)

end TriggerSF
